import Mathlib

set_option maxRecDepth 2000

/-!
Verification development for the SteamAPI/BigAppList repository.

Go values are embedded as follows: Go strings are lists of bytes
(`List Nat`, each element a byte value), Go `uint32`/`int` values are
`Nat`, Go `int64` values are `Int`, and `time.Time` values are their Unix
second count (`Int`); the package only ever uses second resolution.
Fallible operations return `Option` or a dedicated result inductive.
Go library collaborators (`sort`, `fmt` scanning and quoting, `time`
formatting and parsing) are modelled by executable Lean functions whose
behaviour is documented at each definition.
-/

/-! ## Byte-string helpers (Go string operations) -/

/-- Byte-wise lexicographic strict order, as used by Go's `<` on strings. -/
def bytesLT : List Nat → List Nat → Bool
  | [], [] => false
  | [], _ :: _ => true
  | _ :: _, [] => false
  | a :: as, b :: bs => if a < b then true else if b < a then false else bytesLT as bs

/-- Models `strings.ToUpper` for ASCII bytes: lower-case ASCII letters are
mapped to upper case and all other bytes are left unchanged.  (Go's
`strings.ToUpper` additionally case-folds non-ASCII runes via the Unicode
tables; no claim in this development depends on non-ASCII case folding.) -/
def goToUpper (s : List Nat) : List Nat :=
  s.map fun b => if 97 ≤ b ∧ b ≤ 122 then b - 32 else b

/-! ## The data model (BigAppList.go) -/

/-- Entries of the big app list: `NameAndNumber` holds a name and an app id.
`SteamAppID` is `uint32`; every id actually stored is at most `maxAppID`. -/
structure NameAndNumber where
  Name : List Nat
  ID : Nat
deriving DecidableEq, Repr

/-- The zero value of `NameAndNumber`: the sentinel appended to every view. -/
def nullItem : NameAndNumber := { Name := [], ID := 0 }

/-- Upper bound on real app ids (`1<<31 - 1`). -/
def maxAppID : Nat := 2147483647

/-- In-memory copy of the Steam app list.  `AsOf` is the fetch time as Unix
seconds; `Count` excludes the sentinel entries at the end of the views. -/
structure AppList where
  AsOf : Int
  Count : Nat
  ByAppNum : List NameAndNumber
  ByNameMC : List NameAndNumber
  ByNameUC : List NameAndNumber
deriving DecidableEq, Repr

/-- `new(AppList)`: the zero value, before any entries are inserted. -/
def emptyAppList : AppList :=
  { AsOf := 0, Count := 0, ByAppNum := [], ByNameMC := [], ByNameUC := [] }

/-! ## sort.Search (Go standard library) -/

/-- The loop of Go's `sort.Search`: binary search on the interval from `i`
(inclusive) to `j` (exclusive), returning the smallest index at which `f`
holds, under the precondition that `f` is monotone (false, then true). -/
def sortSearchAux (f : Nat → Bool) (i j : Nat) : Nat :=
  if h : i < j then
    if f ((i + j) / 2) then sortSearchAux f i ((i + j) / 2)
    else sortSearchAux f ((i + j) / 2 + 1) j
  else i
termination_by j - i
decreasing_by
  · omega
  · omega

/-- Go's `sort.Search(n, f)`. -/
def sortSearch (n : Nat) (f : Nat → Bool) : Nat := sortSearchAux f 0 n

theorem sortSearchAux_bounds (f : Nat → Bool) (i j : Nat) (hij : i ≤ j) :
    i ≤ sortSearchAux f i j ∧ sortSearchAux f i j ≤ j ∧
      (sortSearchAux f i j < j → f (sortSearchAux f i j) = true) := by
  have hd : ∀ d i j, j - i ≤ d → i ≤ j →
      i ≤ sortSearchAux f i j ∧ sortSearchAux f i j ≤ j ∧
        (sortSearchAux f i j < j → f (sortSearchAux f i j) = true) := by
    intro d
    induction d with
    | zero =>
      intro i j hle hij
      have hji : j = i := by omega
      rw [sortSearchAux]
      simp [hji]
    | succ d ih =>
      intro i j hle hij
      rw [sortSearchAux]
      by_cases hlt : i < j
      · simp only [hlt, dif_pos]
        by_cases hf : f ((i + j) / 2) = true
        · simp only [hf, if_pos]
          have := ih i ((i + j) / 2) (by omega) (by omega)
          refine ⟨this.1, by omega, ?_⟩
          intro hr
          rcases Nat.lt_or_ge (sortSearchAux f i ((i + j) / 2)) ((i + j) / 2) with h | h
          · exact this.2.2 h
          · have : sortSearchAux f i ((i + j) / 2) = (i + j) / 2 := by omega
            rw [this]; exact hf
        · simp only [hf, if_neg, Bool.not_eq_true]
          have := ih ((i + j) / 2 + 1) j (by omega) (by omega)
          exact ⟨by omega, this.2.1, this.2.2⟩
      · simp [hlt]; omega
  exact hd (j - i) i j (le_refl _) hij

theorem sortSearchAux_not_below (f : Nat → Bool) (i j : Nat) (hij : i ≤ j)
    (hmono : ∀ k l, k ≤ l → l < j → f k = true → f l = true) :
    ∀ k, i ≤ k → k < sortSearchAux f i j → f k = false := by
  have hd : ∀ d i j, j - i ≤ d → i ≤ j →
      (∀ k l, k ≤ l → l < j → f k = true → f l = true) →
      ∀ k, i ≤ k → k < sortSearchAux f i j → f k = false := by
    intro d
    induction d with
    | zero =>
      intro i j hle hij _ k hik hk
      have hji : j = i := by omega
      rw [sortSearchAux] at hk
      simp [hji] at hk
      omega
    | succ d ih =>
      intro i j hle hij hm k hik hk
      rw [sortSearchAux] at hk
      by_cases hlt : i < j
      · simp only [hlt, dif_pos] at hk
        by_cases hf : f ((i + j) / 2) = true
        · simp only [hf, if_pos] at hk
          exact ih i ((i + j) / 2) (by omega) (by omega)
            (fun a b hab hb => hm a b hab (by omega)) k hik hk
        · simp only [hf, if_neg, Bool.not_eq_true] at hk
          rcases Nat.lt_or_ge k ((i + j) / 2 + 1) with hc | hc
          · by_contra hkt
            have hkt' : f k = true := by
              cases hfk : f k with
              | false => exact absurd hfk hkt
              | true => rfl
            have : f ((i + j) / 2) = true :=
              hm k ((i + j) / 2) (by omega) (by omega) hkt'
            exact hf this
          · exact ih ((i + j) / 2 + 1) j (by omega) (by omega) hm k hc hk
      · simp [hlt] at hk; omega
  exact hd (j - i) i j (le_refl _) hij hmono

/-! ## Sorting (sort.Sort with the repository's comparators) -/

/-- The `Less` method of `listByAppNum`: compare entries by id. -/
def lessByAppNum (a b : NameAndNumber) : Bool := a.ID < b.ID

/-- The `Less` method of `listByNameMC` and `listByNameUC`: compare entries
by byte-wise name order. -/
def lessByName (a b : NameAndNumber) : Bool := bytesLT a.Name b.Name

/-- Models Go's `sort.Sort` with comparator `less`: the result is a
permutation of the input that is non-decreasing with respect to `less`.
Go's introsort is unstable and the repository does not rely on the order of
equal elements, so an insertion sort realises the same contract. -/
def goSort (less : NameAndNumber → NameAndNumber → Bool) (l : List NameAndNumber) :
    List NameAndNumber :=
  List.insertionSort (fun a b => less b a = false) l

/-! ## Building the AppList (maybeInsert, finishAppList from the current
JSON/terse reader file) -/

/-- Translated from `maybeInsert`: ids of 0 are silently dropped, ids outside
the range from 1 to `maxAppID` are logged (side effect not modelled) and
dropped, and surviving pairs are appended to all three views, the
`ByNameUC` view receiving the uppercased name. -/
def maybeInsert (number : Int) (name : List Nat) (al : AppList) : AppList :=
  if number = 0 then al
  else if number < 0 ∨ (maxAppID : Int) < number then al
  else
    let appID := number.toNat
    { al with
      ByAppNum := al.ByAppNum ++ [{ Name := name, ID := appID }]
      ByNameMC := al.ByNameMC ++ [{ Name := name, ID := appID }]
      ByNameUC := al.ByNameUC ++ [{ Name := goToUpper name, ID := appID }] }

/-- Folds `maybeInsert` over a list of scanned (id, name) pairs, as both
readers do while consuming their input. -/
def insertAll (pairs : List (Int × List Nat)) (al : AppList) : AppList :=
  pairs.foldl (fun a p => maybeInsert p.1 p.2 a) al

/-- Translated from `finishAppList`: records `Count`, sorts the three views
and appends the sentinel to each.  Note that the source sorts all three
views with `listByAppNum`, the by-id comparator; the name comparators
`listByNameMC`/`listByNameUC` are defined in the source but never used. -/
def finishAppList (al : AppList) : AppList :=
  { al with
    Count := al.ByAppNum.length
    ByAppNum := goSort lessByAppNum al.ByAppNum ++ [nullItem]
    ByNameMC := goSort lessByAppNum al.ByNameMC ++ [nullItem]
    ByNameUC := goSort lessByAppNum al.ByNameUC ++ [nullItem] }

/-! ## Searching (FindNameForNumber) -/

/-- Translated from `FindNameForNumber`: binary-search `ByAppNum` for the
first element with id at least `targetID`; return its index together with
its name on an exact match and the empty string otherwise.  Go's slice
indexing is modelled by `List.getD` with the zero value as default; the
bounds-safety asserted by the claim is proved separately. -/
def FindNameForNumber (al : AppList) (targetID : Nat) : Nat × List Nat :=
  let i := sortSearch al.Count fun j => targetID ≤ (al.ByAppNum.getD j nullItem).ID
  let name :=
    if (al.ByAppNum.getD i nullItem).ID = targetID then
      (al.ByAppNum.getD i nullItem).Name
    else []
  (i, name)

/-! ## Claim C1: the FindNameForNumber contract -/

theorem getD_mono_of_pairwise (al : AppList)
    (hlen : al.ByAppNum.length = al.Count + 1)
    (hsort : List.Pairwise (fun a b => a.ID ≤ b.ID) (al.ByAppNum.take al.Count)) :
    ∀ k l, k ≤ l → l < al.Count →
      (al.ByAppNum.getD k nullItem).ID ≤ (al.ByAppNum.getD l nullItem).ID := by
  intro k l hkl hl
  rcases Nat.eq_or_lt_of_le hkl with rfl | hkl'
  · exact le_refl _
  · have hk' : k < al.ByAppNum.length := by omega
    have hl' : l < al.ByAppNum.length := by omega
    have hkt : k < (al.ByAppNum.take al.Count).length := by
      simp [List.length_take]; omega
    have hlt : l < (al.ByAppNum.take al.Count).length := by
      simp [List.length_take]; omega
    have hgk : (al.ByAppNum.take al.Count).get ⟨k, hkt⟩ = al.ByAppNum.get ⟨k, hk'⟩ := by
      simp [List.get_take]
    have hgl : (al.ByAppNum.take al.Count).get ⟨l, hlt⟩ = al.ByAppNum.get ⟨l, hl'⟩ := by
      simp [List.get_take]
    rw [List.getD_eq_get _ _ hk', List.getD_eq_get _ _ hl', ← hgk, ← hgl]
    exact List.pairwise_iff_get.mp hsort ⟨k, hkt⟩ ⟨l, hlt⟩ hkl'

/-- C1: for every AppList with the reader-established shape (by-id view
sorted, physical length Count + 1, sentinel at index Count) and every
target id, FindNameForNumber returns a pair whose index is in the range
from 0 to Count (hence always a safe index for ByAppNum), and either the
indexed element matches the target exactly and the name is its name, or
the name is empty and the indexed element's id exceeds the target or the
index is Count; no other outcome is possible. -/
theorem FindNameForNumber_spec (al : AppList) (target : Nat)
    (hlen : al.ByAppNum.length = al.Count + 1)
    (hsort : List.Pairwise (fun a b => a.ID ≤ b.ID) (al.ByAppNum.take al.Count))
    (hsent : al.ByAppNum.getD al.Count nullItem = nullItem) :
    (FindNameForNumber al target).1 ≤ al.Count ∧
    (FindNameForNumber al target).1 < al.ByAppNum.length ∧
    (((al.ByAppNum.getD (FindNameForNumber al target).1 nullItem).ID = target ∧
        (FindNameForNumber al target).2 =
          (al.ByAppNum.getD (FindNameForNumber al target).1 nullItem).Name) ∨
      ((FindNameForNumber al target).2 = [] ∧
        (target < (al.ByAppNum.getD (FindNameForNumber al target).1 nullItem).ID ∨
          (FindNameForNumber al target).1 = al.Count))) := by
  have hmono := getD_mono_of_pairwise al hlen hsort
  have h1 : (FindNameForNumber al target).1 =
      sortSearchAux (fun j => decide (target ≤ (al.ByAppNum.getD j nullItem).ID))
        0 al.Count := rfl
  have hb := sortSearchAux_bounds
    (fun j => decide (target ≤ (al.ByAppNum.getD j nullItem).ID)) 0 al.Count
    (Nat.zero_le _)
  have hiC : (FindNameForNumber al target).1 ≤ al.Count := by rw [h1]; exact hb.2.1
  have hfound : (FindNameForNumber al target).1 < al.Count →
      target ≤ (al.ByAppNum.getD (FindNameForNumber al target).1 nullItem).ID := by
    intro hlt
    have := hb.2.2 (by rw [h1] at hlt; exact hlt)
    rw [← h1] at this
    exact of_decide_eq_true this
  have h2 : (FindNameForNumber al target).2 =
      if (al.ByAppNum.getD (FindNameForNumber al target).1 nullItem).ID = target then
        (al.ByAppNum.getD (FindNameForNumber al target).1 nullItem).Name
      else [] := rfl
  refine ⟨hiC, by omega, ?_⟩
  by_cases hexact : (al.ByAppNum.getD (FindNameForNumber al target).1 nullItem).ID = target
  · left
    exact ⟨hexact, by rw [h2, if_pos hexact]⟩
  · right
    refine ⟨by rw [h2, if_neg hexact], ?_⟩
    rcases Nat.lt_or_ge (FindNameForNumber al target).1 al.Count with hi' | hi'
    · left
      have := hfound hi'
      omega
    · right; omega

theorem FindNameForNumber_spec_witness :
    (let al := finishAppList (insertAll [(5, [88])] emptyAppList)
     al.ByAppNum.length = al.Count + 1 ∧
     List.Pairwise (fun a b => a.ID ≤ b.ID) (al.ByAppNum.take al.Count) ∧
     al.ByAppNum.getD al.Count nullItem = nullItem) ∧
    (let al := finishAppList (insertAll [(5, [88])] emptyAppList)
     (FindNameForNumber al 5).1 ≤ al.Count ∧
     (FindNameForNumber al 5).1 < al.ByAppNum.length ∧
     (((al.ByAppNum.getD (FindNameForNumber al 5).1 nullItem).ID = 5 ∧
         (FindNameForNumber al 5).2 =
           (al.ByAppNum.getD (FindNameForNumber al 5).1 nullItem).Name) ∨
       ((FindNameForNumber al 5).2 = [] ∧
         (5 < (al.ByAppNum.getD (FindNameForNumber al 5).1 nullItem).ID ∨
           (FindNameForNumber al 5).1 = al.Count)))) :=
  ⟨by decide,
   FindNameForNumber_spec (finishAppList (insertAll [(5, [88])] emptyAppList)) 5
     (by decide) (by decide) (by decide)⟩

/-! ## Claim C2: sort orders of the three views -/

/-- C2 (divergence witness): finishAppList sorts every view with the by-id
comparator, so on the input pairs (10, "A"), (5, "B") the ByNameMC view
comes out in id order with names "B", "A" — not ascending byte-wise name
order — even though its by-id view is correctly sorted.  This contradicts
the claimed name ordering of ByNameMC. -/
theorem finishAppList_nameView_not_sorted :
    (let al := finishAppList (insertAll [(10, [65]), (5, [66])] emptyAppList)
     (al.ByNameMC.take al.Count).map NameAndNumber.Name = [[66], [65]] ∧
     ¬ List.Pairwise (fun a b => bytesLT b.Name a.Name = false)
         (al.ByNameMC.take al.Count) ∧
     List.Pairwise (fun a b => a.ID ≤ b.ID) (al.ByAppNum.take al.Count)) := by
  decide

/-! ## Claim C5: physical shape of the finished views -/

/-- The pairs that `maybeInsert` accepts, in arrival order. -/
def validEntries (pairs : List (Int × List Nat)) : List NameAndNumber :=
  pairs.filterMap fun p =>
    if 0 < p.1 ∧ p.1 ≤ (maxAppID : Int) then
      some { Name := p.2, ID := p.1.toNat } else none

/-- The accepted pairs as stored in the ByNameUC view (names uppercased). -/
def validEntriesUC (pairs : List (Int × List Nat)) : List NameAndNumber :=
  (validEntries pairs).map fun e => { Name := goToUpper e.Name, ID := e.ID }

theorem insertAll_views (pairs : List (Int × List Nat)) (al : AppList) :
    (insertAll pairs al).ByAppNum = al.ByAppNum ++ validEntries pairs ∧
    (insertAll pairs al).ByNameMC = al.ByNameMC ++ validEntries pairs ∧
    (insertAll pairs al).ByNameUC = al.ByNameUC ++ validEntriesUC pairs ∧
    (insertAll pairs al).AsOf = al.AsOf ∧
    (insertAll pairs al).Count = al.Count := by
  induction pairs generalizing al with
  | nil => simp [insertAll, validEntries, validEntriesUC]
  | cons p ps ih =>
    have hstep : insertAll (p :: ps) al = insertAll ps (maybeInsert p.1 p.2 al) := rfl
    rw [hstep]
    obtain ⟨h1, h2, h3, h4, h5⟩ := ih (maybeInsert p.1 p.2 al)
    rw [h1, h2, h3, h4, h5]
    have hM : (maxAppID : Int) = 2147483647 := by norm_num [maxAppID]
    by_cases hc : 0 < p.1 ∧ p.1 ≤ (maxAppID : Int)
    · have hc' := hc
      rw [hM] at hc'
      have hne : ¬ p.1 = 0 := by omega
      have hrange : ¬ (p.1 < 0 ∨ (maxAppID : Int) < p.1) := by rw [hM]; omega
      simp only [maybeInsert, if_neg hne, if_neg hrange,
        validEntries, validEntriesUC, List.filterMap_cons, if_pos hc]
      simp [List.append_assoc]
    · have hc' := hc
      rw [hM] at hc'
      have hmi : maybeInsert p.1 p.2 al = al := by
        by_cases h0 : p.1 = 0
        · simp [maybeInsert, h0]
        · have hor : p.1 < 0 ∨ (maxAppID : Int) < p.1 := by rw [hM]; omega
          simp [maybeInsert, h0, hor]
      rw [hmi]
      simp only [validEntries, validEntriesUC, List.filterMap_cons, if_neg hc]
      simp

theorem validEntries_mem_range (pairs : List (Int × List Nat)) :
    ∀ e ∈ validEntries pairs, 0 < e.ID ∧ e.ID ≤ maxAppID := by
  intro e he
  rw [validEntries, List.mem_filterMap] at he
  obtain ⟨p, _, hp⟩ := he
  by_cases hc : 0 < p.1 ∧ p.1 ≤ (maxAppID : Int)
  · rw [if_pos hc] at hp
    cases hp
    have hM : (maxAppID : Int) = 2147483647 := by norm_num [maxAppID]
    have hMn : maxAppID = 2147483647 := by norm_num [maxAppID]
    rw [hM] at hc
    refine ⟨?_, ?_⟩
    · show 0 < p.1.toNat
      omega
    · show p.1.toNat ≤ maxAppID
      rw [hMn]; omega
  · rw [if_neg hc] at hp
    exact absurd hp (by simp)

/-- C5: every AppList produced by finishAppList from reader-accumulated
pairs has three views of physical length Count + 1; each view's element at
index Count is exactly the sentinel; the first Count elements of the views
are precisely the accepted real entries (ids from 1 to maxAppID, never the
sentinel id 0), with ByNameUC holding the uppercased names; and Count
counts only those real entries. -/
theorem finishAppList_shape (pairs : List (Int × List Nat)) :
    (let al := finishAppList (insertAll pairs emptyAppList)
     (al.ByAppNum.length = al.Count + 1 ∧
      al.ByNameMC.length = al.Count + 1 ∧
      al.ByNameUC.length = al.Count + 1) ∧
     (al.ByAppNum.getD al.Count nullItem = nullItem ∧
      al.ByNameMC.getD al.Count nullItem = nullItem ∧
      al.ByNameUC.getD al.Count nullItem = nullItem) ∧
     ((al.ByAppNum.take al.Count).Perm (validEntries pairs) ∧
      (al.ByNameMC.take al.Count).Perm (validEntries pairs) ∧
      (al.ByNameUC.take al.Count).Perm (validEntriesUC pairs)) ∧
     al.Count = (validEntries pairs).length ∧
     (∀ e ∈ al.ByAppNum.take al.Count, 0 < e.ID ∧ e.ID ≤ maxAppID)) := by
  obtain ⟨h1, h2, h3, _, _⟩ := insertAll_views pairs emptyAppList
  have he1 : emptyAppList.ByAppNum = [] := rfl
  have he2 : emptyAppList.ByNameMC = [] := rfl
  have he3 : emptyAppList.ByNameUC = [] := rfl
  rw [he1] at h1; rw [he2] at h2; rw [he3] at h3
  rw [List.nil_append] at h1 h2 h3
  set pre := insertAll pairs emptyAppList with hpre
  have hulen : (validEntriesUC pairs).length = (validEntries pairs).length := by
    simp [validEntriesUC]
  have hslen : ∀ (less) (l : List NameAndNumber), (goSort less l).length = l.length :=
    fun less l => (List.perm_insertionSort _ l).length_eq
  have hix : ∀ (l : List NameAndNumber),
      (l ++ [nullItem]).getD l.length nullItem = nullItem := by
    intro l
    rw [List.getD_append_right l [nullItem] nullItem l.length (le_refl _)]
    simp
  have htake : ∀ (l : List NameAndNumber),
      (l ++ [nullItem]).take l.length = l := by
    intro l
    exact List.take_left l [nullItem]
  have hlAN : pre.ByAppNum.length = (goSort lessByAppNum pre.ByAppNum).length := by
    rw [hslen]
  have hlMC : pre.ByAppNum.length = (goSort lessByAppNum pre.ByNameMC).length := by
    rw [hslen, h2, h1]
  have hlUC : pre.ByAppNum.length = (goSort lessByAppNum pre.ByNameUC).length := by
    rw [hslen, h3, h1, hulen]
  refine ⟨⟨?_, ?_, ?_⟩, ⟨?_, ?_, ?_⟩, ⟨?_, ?_, ?_⟩, ?_, ?_⟩
  · simp only [finishAppList, List.length_append, List.length_singleton]
    rw [hslen]
  · simp only [finishAppList, List.length_append, List.length_singleton]
    rw [hslen, h2, h1]
  · simp only [finishAppList, List.length_append, List.length_singleton]
    rw [hslen, h3, h1, hulen]
  · simp only [finishAppList]
    rw [hlAN]
    exact hix _
  · simp only [finishAppList]
    rw [hlMC]
    exact hix _
  · simp only [finishAppList]
    rw [hlUC]
    exact hix _
  · simp only [finishAppList]
    rw [hlAN, htake _]
    rw [h1]
    exact List.perm_insertionSort _ _
  · simp only [finishAppList]
    rw [hlMC, htake _]
    rw [h2]
    exact List.perm_insertionSort _ _
  · simp only [finishAppList]
    rw [hlUC, htake _]
    rw [h3]
    exact List.perm_insertionSort _ _
  · simp only [finishAppList]
    rw [h1]
  · intro e he
    simp only [finishAppList] at he
    rw [hlAN, htake _] at he
    have hperm : (goSort lessByAppNum pre.ByAppNum).Perm (validEntries pairs) := by
      rw [h1]; exact List.perm_insertionSort _ _
    exact validEntries_mem_range pairs e (hperm.mem_iff.mp he)

/-! ## Civil time (model of the Go time package at second resolution, UTC)

The package stores `time.Time` values only at second resolution and only in
UTC; `time.Time` is embedded as its Unix second count (`Int`).  The header
format/parse pair of the terse format needs the civil (Gregorian) calendar,
modelled here after Go's `absDate`/`absFromDate`: a 400/100/4/1-year
cascade on days counted from January 1 of year 1 (Go's `unixToInternal`
offset 62135596800 seconds), plus the `daysBefore` month table. -/

def yyN400 (d : Nat) : Nat := d / 146097
def yyD1 (d : Nat) : Nat := d % 146097
def yyN100 (d : Nat) : Nat := yyD1 d / 36524 - yyD1 d / 36524 / 4
def yyD2 (d : Nat) : Nat := yyD1 d - 36524 * yyN100 d
def yyN4 (d : Nat) : Nat := yyD2 d / 1461
def yyD3 (d : Nat) : Nat := yyD2 d - 1461 * yyN4 d
def yyN1 (d : Nat) : Nat := yyD3 d / 365 - yyD3 d / 365 / 4
def yyD4 (d : Nat) : Nat := yyD3 d - 365 * yyN1 d

/-- Year (from 1) and zero-based day-of-year of a day count since
0001-01-01, via Go `absDate`'s cascade of 400-year, 100-year, 4-year and
1-year cycles (the `n -= n >> 2` clamps appear as the two subtractions). -/
def yearYday (d : Nat) : Nat × Nat :=
  (1 + 400 * yyN400 d + 100 * yyN100 d + 4 * yyN4 d + yyN1 d, yyD4 d)

/-- Days from 0001-01-01 to January 1 of year `y` (for `y ≥ 1`). -/
def daysToYearStart (y : Nat) : Nat :=
  365 * (y - 1) + (y - 1) / 4 - (y - 1) / 100 + (y - 1) / 400

/-- Gregorian leap-year test (Go `isLeap`). -/
def isLeap (y : Nat) : Bool := y % 4 = 0 ∧ (y % 100 ≠ 0 ∨ y % 400 = 0)

/-- Go's `daysBefore` table: days in a non-leap year before the end of
month `i+1`, indexed 0 to 12. -/
def daysBefore0 : Nat → Nat
  | 0 => 0 | 1 => 31 | 2 => 59 | 3 => 90 | 4 => 120 | 5 => 151 | 6 => 181
  | 7 => 212 | 8 => 243 | 9 => 273 | 10 => 304 | 11 => 334 | _ => 365

/-- Month (1-12) and day-of-month from a zero-based day-of-year, following
the tail of Go's `absDate` (leap-day special case, estimate `day / 31`,
correct with the `daysBefore` table). -/
def monthDay (leap : Bool) (yday : Nat) : Nat × Nat :=
  if leap = true ∧ yday = 59 then (2, 29)
  else
    let day := if leap = true ∧ 59 < yday then yday - 1 else yday
    let m0 := day / 31
    let endd := daysBefore0 (m0 + 1)
    let m1 := if endd ≤ day then m0 + 1 else m0
    let begin := if endd ≤ day then endd else daysBefore0 m0
    (m1 + 1, day - begin + 1)

/-- Zero-based day-of-year of a month/day pair (Go `absFromDate`'s month
contribution). -/
def ydayOf (leap : Bool) (m d : Nat) : Nat :=
  daysBefore0 (m - 1) + (if leap = true ∧ 3 ≤ m then 1 else 0) + (d - 1)

/-- Days in month `m` of a (non-)leap year (Go `daysIn`), used by
`time.Parse` to validate the day of the month. -/
def daysIn (leap : Bool) (m : Nat) : Nat :=
  if m = 2 ∧ leap = true then 29 else daysBefore0 m - daysBefore0 (m - 1)

theorem cascade_core (d n400 d1 e f n100 d2 n4 d3 g i n1 d4 : Nat)
    (h1 : n400 = d / 146097) (h2 : d1 = d % 146097) (h3 : e = d1 / 36524)
    (h4 : f = e / 4) (h5 : n100 = e - f) (h6 : d2 = d1 - 36524 * n100)
    (h7 : n4 = d2 / 1461) (h8 : d3 = d2 - 1461 * n4) (h9 : g = d3 / 365)
    (h10 : i = g / 4) (h11 : n1 = g - i) (h12 : d4 = d3 - 365 * n1) :
    365 * (400 * n400 + 100 * n100 + 4 * n4 + n1) +
        (400 * n400 + 100 * n100 + 4 * n4 + n1) / 4 -
        (400 * n400 + 100 * n100 + 4 * n4 + n1) / 100 +
        (400 * n400 + 100 * n100 + 4 * n4 + n1) / 400 + d4 = d ∧
      (d4 < 365 ∨
        (d4 = 365 ∧ (400 * n400 + 100 * n100 + 4 * n4 + n1 + 1) % 4 = 0 ∧
          ((400 * n400 + 100 * n100 + 4 * n4 + n1 + 1) % 100 = 0 →
            (400 * n400 + 100 * n100 + 4 * n4 + n1 + 1) % 400 = 0))) := by
  have he : e ≤ 4 := by omega
  have hf : f ≤ 1 := by omega
  have hn100 : n100 ≤ 3 := by omega
  have hsplit1 : d1 = 36524 * n100 + d2 := by omega
  have hd2 : d2 ≤ 36524 := by omega
  have hn4 : n4 ≤ 24 := by omega
  have hsplit2 : d2 = 1461 * n4 + d3 := by omega
  have hd3 : d3 ≤ 1460 := by omega
  have hg : g ≤ 4 := by omega
  have hn1 : n1 ≤ 3 := by omega
  have hsplit3 : d3 = 365 * n1 + d4 := by omega
  have hd4 : d4 ≤ 365 := by omega
  have hq4 : (400 * n400 + 100 * n100 + 4 * n4 + n1) / 4 =
      100 * n400 + 25 * n100 + n4 := by omega
  have hq100 : (400 * n400 + 100 * n100 + 4 * n4 + n1) / 100 =
      4 * n400 + n100 := by omega
  have hq400 : (400 * n400 + 100 * n100 + 4 * n4 + n1) / 400 = n400 := by omega
  constructor
  · omega
  · by_cases hc : d4 < 365
    · left; exact hc
    · right
      have hd4e : d4 = 365 := by omega
      have hg4 : g = 4 := by omega
      have hn13 : n1 = 3 := by omega
      have hd3e : d3 = 1460 := by omega
      refine ⟨hd4e, by omega, ?_⟩
      intro h100
      have hn424 : n4 = 24 := by omega
      have hd2e : d2 = 36524 := by omega
      have hfe : f = 1 := by omega
      have hn1003 : n100 = 3 := by omega
      omega

theorem yearYday_spec (d : Nat) :
    1 ≤ (yearYday d).1 ∧
    daysToYearStart (yearYday d).1 + (yearYday d).2 = d ∧
    ((yearYday d).2 < 365 ∨ ((yearYday d).2 = 365 ∧ isLeap (yearYday d).1 = true)) := by
  have hc := cascade_core d (yyN400 d) (yyD1 d) (yyD1 d / 36524) (yyD1 d / 36524 / 4)
    (yyN100 d) (yyD2 d) (yyN4 d) (yyD3 d) (yyD3 d / 365) (yyD3 d / 365 / 4)
    (yyN1 d) (yyD4 d) rfl rfl rfl rfl rfl rfl rfl rfl rfl rfl rfl rfl
  have h1 := hc.1
  have h2 := hc.2
  refine ⟨?_, ?_, ?_⟩
  · simp only [yearYday]; omega
  · simp only [yearYday, daysToYearStart]
    have hX : 1 + 400 * yyN400 d + 100 * yyN100 d + 4 * yyN4 d + yyN1 d - 1 =
        400 * yyN400 d + 100 * yyN100 d + 4 * yyN4 d + yyN1 d := by omega
    rw [hX]
    omega
  · rcases h2 with h | ⟨he, hm4, hm100⟩
    · left
      simpa only [yearYday] using h
    · right
      refine ⟨by simpa only [yearYday] using he, ?_⟩
      have : isLeap (1 + 400 * yyN400 d + 100 * yyN100 d + 4 * yyN4 d + yyN1 d) = true := by
        rw [isLeap, decide_eq_true_eq]
        omega
      simpa only [yearYday] using this

/-- The month/day decomposition agrees with its inverse on every day of a
year: the exhaustive finite check backing the round-trip lemma. -/
def monthDayCheck (leap : Bool) (yday : Nat) : Bool :=
  decide (ydayOf leap (monthDay leap yday).1 (monthDay leap yday).2 = yday ∧
    1 ≤ (monthDay leap yday).1 ∧ (monthDay leap yday).1 ≤ 12 ∧
    1 ≤ (monthDay leap yday).2 ∧
    (monthDay leap yday).2 ≤ daysIn leap (monthDay leap yday).1)

theorem monthDay_ok_nonleap : ∀ yday : Nat, yday < 365 → monthDayCheck false yday = true := by
  decide

theorem monthDay_ok_leap : ∀ yday : Nat, yday < 366 → monthDayCheck true yday = true := by
  decide

/-- Civil date-time at second resolution (the fields Go's clock/date
accessors expose and its layouts print). -/
structure Civil where
  year : Nat
  month : Nat
  day : Nat
  hour : Nat
  minute : Nat
  second : Nat
deriving DecidableEq, Repr

/-- Models Go `time.Unix(t, 0).UTC()`'s civil decomposition for instants
from year 1 onward (`t ≥ -62135596800`, Go's `unixToInternal` offset). -/
def toCivil (t : Int) : Civil :=
  { year := (yearYday ((t + 62135596800).toNat / 86400)).1
    month := (monthDay (isLeap (yearYday ((t + 62135596800).toNat / 86400)).1)
      (yearYday ((t + 62135596800).toNat / 86400)).2).1
    day := (monthDay (isLeap (yearYday ((t + 62135596800).toNat / 86400)).1)
      (yearYday ((t + 62135596800).toNat / 86400)).2).2
    hour := (t + 62135596800).toNat % 86400 / 3600
    minute := (t + 62135596800).toNat % 86400 % 3600 / 60
    second := (t + 62135596800).toNat % 86400 % 60 }

/-- Unix seconds of a civil date-time with year at least 1 (Go
`time.Date(...).Unix()` for UTC), the value `time.Parse` reports. -/
def fromCivil (c : Civil) : Int :=
  (((daysToYearStart c.year + ydayOf (isLeap c.year) c.month c.day) * 86400
    + c.hour * 3600 + c.minute * 60 + c.second : Nat) : Int) - 62135596800

theorem fromCivil_toCivil (t : Int) (h0 : -62135596800 ≤ t) :
    fromCivil (toCivil t) = t := by
  have hnt : ((t + 62135596800).toNat : Int) = t + 62135596800 := by omega
  set n := (t + 62135596800).toNat with hn
  have hyd := yearYday_spec (n / 86400)
  have hydlt : (yearYday (n / 86400)).2 <
      (if isLeap (yearYday (n / 86400)).1 = true then 366 else 365) := by
    rcases hyd.2.2 with h | ⟨h, hleap⟩
    · split <;> omega
    · rw [if_pos hleap]; omega
  have hmd : monthDayCheck (isLeap (yearYday (n / 86400)).1) (yearYday (n / 86400)).2
      = true := by
    by_cases hl : isLeap (yearYday (n / 86400)).1 = true
    · rw [hl]
      exact monthDay_ok_leap _ (by rw [if_pos hl] at hydlt; exact hydlt)
    · rw [Bool.not_eq_true] at hl
      rw [hl]
      exact monthDay_ok_nonleap _ (by rw [if_neg (by simp [hl])] at hydlt; exact hydlt)
  rw [monthDayCheck, decide_eq_true_eq] at hmd
  obtain ⟨hinv, _, _, _, _⟩ := hmd
  show (((daysToYearStart (toCivil t).year +
      ydayOf (isLeap (toCivil t).year) (toCivil t).month (toCivil t).day) * 86400
    + (toCivil t).hour * 3600 + (toCivil t).minute * 60 + (toCivil t).second : Nat) : Int)
      - 62135596800 = t
  have hy : (toCivil t).year = (yearYday (n / 86400)).1 := rfl
  have hm : (toCivil t).month =
      (monthDay (isLeap (yearYday (n / 86400)).1) (yearYday (n / 86400)).2).1 := rfl
  have hd : (toCivil t).day =
      (monthDay (isLeap (yearYday (n / 86400)).1) (yearYday (n / 86400)).2).2 := rfl
  have hh : (toCivil t).hour = n % 86400 / 3600 := rfl
  have hmi : (toCivil t).minute = n % 86400 % 3600 / 60 := rfl
  have hs : (toCivil t).second = n % 86400 % 60 := rfl
  rw [hy, hm, hd, hh, hmi, hs, hinv]
  have hsum : daysToYearStart (yearYday (n / 86400)).1 + (yearYday (n / 86400)).2 =
      n / 86400 := hyd.2.1
  rw [hsum]
  omega

/-! ## Header timestamp formatting and parsing -/

/-- ASCII decimal digit test. -/
def isDigit (b : Nat) : Bool := 48 ≤ b ∧ b ≤ 57

/-- Two ASCII digits, zero padded (Go layout components `01`, `02`, `15`,
`04`, `05`). -/
def pad2 (n : Nat) : List Nat := [48 + n / 10 % 10, 48 + n % 10]

/-- Four ASCII digits, zero padded (Go layout component `2006` for years 0
to 9999). -/
def pad4 (n : Nat) : List Nat :=
  [48 + n / 1000 % 10, 48 + n / 100 % 10, 48 + n / 10 % 10, 48 + n % 10]

/-- Models Go `t.UTC().Format(formatHeaderTime)` with the layout
`2006-01-02 15:04:05Z` at second resolution: zero-padded fields joined by
the layout's literal dashes, space, colons and the trailing literal Z. -/
def formatTimeUTC (t : Int) : List Nat :=
  pad4 (toCivil t).year ++ [45] ++ pad2 (toCivil t).month ++ [45] ++
    pad2 (toCivil t).day ++ [32] ++ pad2 (toCivil t).hour ++ [58] ++
    pad2 (toCivil t).minute ++ [58] ++ pad2 (toCivil t).second ++ [90]

/-- Models Go `time.Parse(formatHeaderTime, s).Unix()`: a fixed-shape
twenty-byte timestamp is decomposed into its fields, the fields are
range-checked exactly as `time.Parse` does (month 1-12, day within the
month, hour below 24, minute and second below 60), and the Unix second
count is returned.  The model requires year at least 1 (Go additionally
accepts year 0000; headers written by this package always carry years from
1970, so nothing in the claims depends on year 0). -/
def parseHeaderTime : List Nat → Option Int
  | [y3, y2, y1, y0, da1, mo1, mo0, da2, d1, d0, sp, h1, h0, co1, mi1, mi0,
     co2, s1, s0, z] =>
    if isDigit y3 = true ∧ isDigit y2 = true ∧ isDigit y1 = true ∧ isDigit y0 = true ∧
       da1 = 45 ∧ isDigit mo1 = true ∧ isDigit mo0 = true ∧ da2 = 45 ∧
       isDigit d1 = true ∧ isDigit d0 = true ∧ sp = 32 ∧
       isDigit h1 = true ∧ isDigit h0 = true ∧ co1 = 58 ∧
       isDigit mi1 = true ∧ isDigit mi0 = true ∧ co2 = 58 ∧
       isDigit s1 = true ∧ isDigit s0 = true ∧ z = 90 then
      let year := (y3 - 48) * 1000 + (y2 - 48) * 100 + (y1 - 48) * 10 + (y0 - 48)
      let month := (mo1 - 48) * 10 + (mo0 - 48)
      let day := (d1 - 48) * 10 + (d0 - 48)
      let hour := (h1 - 48) * 10 + (h0 - 48)
      let minute := (mi1 - 48) * 10 + (mi0 - 48)
      let second := (s1 - 48) * 10 + (s0 - 48)
      if 1 ≤ year ∧ 1 ≤ month ∧ month ≤ 12 ∧ 1 ≤ day ∧
         day ≤ daysIn (isLeap year) month ∧ hour ≤ 23 ∧ minute ≤ 59 ∧ second ≤ 59 then
        some (fromCivil { year := year, month := month, day := day,
                          hour := hour, minute := minute, second := second })
      else none
    else none
  | _ => none

theorem daysIn_le_31 (leap : Bool) (m : Nat) : daysIn leap m ≤ 31 := by
  rcases Nat.lt_or_ge m 13 with h | h
  · interval_cases m <;> cases leap <;> decide
  · obtain ⟨k, rfl⟩ : ∃ k, m = k + 13 := ⟨m - 13, by omega⟩
    have h1 : daysBefore0 (k + 13) = 365 := rfl
    have h2 : daysBefore0 (k + 13 - 1) = 365 := by
      have he : k + 13 - 1 = k + 12 := by omega
      rw [he]
      rfl
    rw [daysIn]
    split
    · omega
    · rw [h1, h2]
      omega

theorem parseHeaderTime_pads (y mo dd hh mi ss : Nat)
    (hy1 : 1 ≤ y) (hy : y ≤ 9999) (hm1 : 1 ≤ mo) (hm2 : mo ≤ 12)
    (hd1 : 1 ≤ dd) (hd2 : dd ≤ daysIn (isLeap y) mo)
    (hhh : hh ≤ 23) (hmi : mi ≤ 59) (hss : ss ≤ 59) :
    parseHeaderTime (pad4 y ++ [45] ++ pad2 mo ++ [45] ++ pad2 dd ++ [32] ++
        pad2 hh ++ [58] ++ pad2 mi ++ [58] ++ pad2 ss ++ [90]) =
      some (fromCivil { year := y, month := mo, day := dd,
                        hour := hh, minute := mi, second := ss }) := by
  have hY : (48 + y / 1000 % 10 - 48) * 1000 + (48 + y / 100 % 10 - 48) * 100 +
      (48 + y / 10 % 10 - 48) * 10 + (48 + y % 10 - 48) = y := by omega
  have hMo : (48 + mo / 10 % 10 - 48) * 10 + (48 + mo % 10 - 48) = mo := by omega
  have hd31 : dd ≤ 31 := le_trans hd2 (daysIn_le_31 _ _)
  have hD : (48 + dd / 10 % 10 - 48) * 10 + (48 + dd % 10 - 48) = dd := by omega
  have hH : (48 + hh / 10 % 10 - 48) * 10 + (48 + hh % 10 - 48) = hh := by omega
  have hMi : (48 + mi / 10 % 10 - 48) * 10 + (48 + mi % 10 - 48) = mi := by omega
  have hS : (48 + ss / 10 % 10 - 48) * 10 + (48 + ss % 10 - 48) = ss := by omega
  have hdig : ∀ k : Nat, isDigit (48 + k % 10) = true := by
    intro k
    rw [isDigit, decide_eq_true_eq]
    omega
  simp only [pad4, pad2, List.cons_append, List.nil_append, parseHeaderTime]
  rw [if_pos]
  · rw [hY, hMo, hD, hH, hMi, hS]
    rw [if_pos]
    exact ⟨hy1, hm1, hm2, hd1, hd2, hhh, hmi, hss⟩
  · simp [hdig]

theorem year_le_9999 (d : Nat) (h : d ≤ 3652058) :
    1 + 400 * yyN400 d + 100 * yyN100 d + 4 * yyN4 d + yyN1 d ≤ 9999 := by
  have hc := cascade_core d (yyN400 d) (yyD1 d) (yyD1 d / 36524) (yyD1 d / 36524 / 4)
    (yyN100 d) (yyD2 d) (yyN4 d) (yyD3 d) (yyD3 d / 365) (yyD3 d / 365 / 4)
    (yyN1 d) (yyD4 d) rfl rfl rfl rfl rfl rfl rfl rfl rfl rfl rfl rfl
  have h1 := hc.1
  omega

theorem toCivil_fields (t : Int) (h0 : -62135596800 ≤ t) :
    1 ≤ (toCivil t).year ∧ 1 ≤ (toCivil t).month ∧ (toCivil t).month ≤ 12 ∧
    1 ≤ (toCivil t).day ∧
    (toCivil t).day ≤ daysIn (isLeap (toCivil t).year) (toCivil t).month ∧
    (toCivil t).hour ≤ 23 ∧ (toCivil t).minute ≤ 59 ∧ (toCivil t).second ≤ 59 := by
  set n := (t + 62135596800).toNat with hn
  have hyd := yearYday_spec (n / 86400)
  have hydlt : (yearYday (n / 86400)).2 <
      (if isLeap (yearYday (n / 86400)).1 = true then 366 else 365) := by
    rcases hyd.2.2 with h | ⟨h, hleap⟩
    · split <;> omega
    · rw [if_pos hleap]; omega
  have hmd : monthDayCheck (isLeap (yearYday (n / 86400)).1) (yearYday (n / 86400)).2
      = true := by
    by_cases hl : isLeap (yearYday (n / 86400)).1 = true
    · rw [hl]
      exact monthDay_ok_leap _ (by rw [if_pos hl] at hydlt; exact hydlt)
    · rw [Bool.not_eq_true] at hl
      rw [hl]
      exact monthDay_ok_nonleap _ (by rw [if_neg (by simp [hl])] at hydlt; exact hydlt)
  rw [monthDayCheck, decide_eq_true_eq] at hmd
  exact ⟨hyd.1, hmd.2.1, hmd.2.2.1, hmd.2.2.2.1, hmd.2.2.2.2,
    by show n % 86400 / 3600 ≤ 23; omega,
    by show n % 86400 % 3600 / 60 ≤ 59; omega,
    by show n % 86400 % 60 ≤ 59; omega⟩

/-- Writing a timestamp with the header layout and parsing it back yields
the same Unix second, for every instant between year 1 and year 9999. -/
theorem parse_format_time (t : Int)
    (hlo : -62135596800 ≤ t) (hhi : t < 253402300800) :
    parseHeaderTime (formatTimeUTC t) = some t := by
  obtain ⟨f1, f2, f3, f4, f5, f6, f7, f8⟩ := toCivil_fields t hlo
  have hy9999 : (toCivil t).year ≤ 9999 := by
    show (yearYday ((t + 62135596800).toNat / 86400)).1 ≤ 9999
    have hd : (t + 62135596800).toNat / 86400 ≤ 3652058 := by omega
    have := year_le_9999 _ hd
    simpa only [yearYday] using this
  have hp := parseHeaderTime_pads (toCivil t).year (toCivil t).month (toCivil t).day
    (toCivil t).hour (toCivil t).minute (toCivil t).second f1 hy9999 f2 f3 f4 f5 f6 f7 f8
  have heta : Civil.mk (toCivil t).year (toCivil t).month (toCivil t).day
      (toCivil t).hour (toCivil t).minute (toCivil t).second = toCivil t := rfl
  rw [formatTimeUTC, hp, heta, fromCivil_toCivil t hlo]

/-! ## Quoting (fmt's %q verb: strconv.Quote / quoted-string scanning)

The writer emits `fmt.Sprintf("%q", name)` minus the outer quotes; the
readers scan with `fmt.Fscanf(..., "%q", &name)`, which reads a
double-quoted token (honouring backslash escapes) and unquotes it.  The
model works at byte level: quote, backslash, tab, newline and carriage
return are backslash-escaped, printable ASCII is kept verbatim, and every
other byte is hex-escaped.  (Go additionally keeps printable non-ASCII
UTF-8 verbatim and uses `\a \b \f \v` for those controls; both choices
unquote to the same bytes, and no claim inspects the quoted text itself.)
-/

/-- Lower-case hexadecimal digit, as in Go's `\xhh` escapes. -/
def hexDigit (n : Nat) : Nat := if n < 10 then 48 + n else 87 + n

def isHex (b : Nat) : Bool :=
  (48 ≤ b ∧ b ≤ 57) ∨ (97 ≤ b ∧ b ≤ 102) ∨ (65 ≤ b ∧ b ≤ 70)

def hexVal (b : Nat) : Nat :=
  if 48 ≤ b ∧ b ≤ 57 then b - 48
  else if 97 ≤ b ∧ b ≤ 102 then b - 87
  else if 65 ≤ b ∧ b ≤ 70 then b - 55
  else 0

/-- The quoted form of one byte (without surrounding quotes). -/
def goQuoteChar (b : Nat) : List Nat :=
  if b = 34 then [92, 34]
  else if b = 92 then [92, 92]
  else if b = 9 then [92, 116]
  else if b = 10 then [92, 110]
  else if b = 13 then [92, 114]
  else if 32 ≤ b ∧ b ≤ 126 then [b]
  else [92, 120, hexDigit (b / 16 % 16), hexDigit (b % 16)]

/-- `fmt.Sprintf("%q", name)` minus the leading and trailing quote: the
form the terse writer puts after the tab. -/
def quoteInner (s : List Nat) : List Nat :=
  s.foldr (fun b acc => goQuoteChar b ++ acc) []

/-- Scanning a quoted token: consume the body up to the first unescaped
quote (a backslash always takes the following byte with it), returning the
raw body and the remainder after the closing quote. -/
def scanQBody : List Nat → Option (List Nat × List Nat)
  | [] => none
  | c :: r =>
    if c = 34 then some ([], r)
    else if c = 92 then
      match r with
      | [] => none
      | c2 :: r2 =>
        match scanQBody r2 with
        | some (b, rest) => some (92 :: c2 :: b, rest)
        | none => none
    else if c = 10 then none
    else
      match scanQBody r with
      | some (b, rest) => some (c :: b, rest)
      | none => none

/-- Unquoting a scanned body (strconv.Unquote on the escapes the model
produces; `\u`, `\U` and octal escapes are not modelled — the writer never
emits them and no claim depends on them). -/
def decodeEsc : List Nat → Option (List Nat)
  | [] => some []
  | c :: r =>
    if c = 92 then
      match r with
      | [] => none
      | e :: r2 =>
        if e = 34 then Option.map (fun l => 34 :: l) (decodeEsc r2)
        else if e = 92 then Option.map (fun l => 92 :: l) (decodeEsc r2)
        else if e = 110 then Option.map (fun l => 10 :: l) (decodeEsc r2)
        else if e = 116 then Option.map (fun l => 9 :: l) (decodeEsc r2)
        else if e = 114 then Option.map (fun l => 13 :: l) (decodeEsc r2)
        else if e = 97 then Option.map (fun l => 7 :: l) (decodeEsc r2)
        else if e = 98 then Option.map (fun l => 8 :: l) (decodeEsc r2)
        else if e = 102 then Option.map (fun l => 12 :: l) (decodeEsc r2)
        else if e = 118 then Option.map (fun l => 11 :: l) (decodeEsc r2)
        else if e = 120 then
          match r2 with
          | h1 :: h2 :: r3 =>
            if isHex h1 = true ∧ isHex h2 = true then
              Option.map (fun l => (hexVal h1 * 16 + hexVal h2) :: l) (decodeEsc r3)
            else none
          | _ => none
        else none
    else if c = 10 then none
    else Option.map (fun l => c :: l) (decodeEsc r)

/-- `fmt.Fscanf` with a single `%q` verb on a byte sequence: expect an
opening quote, scan the body, unquote it; input after the closing quote is
left unconsumed. -/
def scanQString (s : List Nat) : Option (List Nat × List Nat) :=
  match s with
  | 34 :: r =>
    match scanQBody r with
    | some (body, rest) =>
      match decodeEsc body with
      | some name => some (name, rest)
      | none => none
    | none => none
  | _ => none

theorem quoteInner_cons (b : Nat) (s : List Nat) :
    quoteInner (b :: s) = goQuoteChar b ++ quoteInner s := rfl

theorem goQuoteChar_bytes (b : Nat) :
    ∀ x ∈ goQuoteChar b, 32 ≤ x ∧ x ≤ 126 := by
  intro x hx
  have hhex : ∀ v : Nat, v ≤ 15 → 32 ≤ hexDigit v ∧ hexDigit v ≤ 126 := by
    intro v hv
    rw [hexDigit]
    split <;> omega
  rw [goQuoteChar] at hx
  split at hx
  · simp at hx; omega
  · split at hx
    · simp at hx; omega
    · split at hx
      · simp at hx; omega
      · split at hx
        · simp at hx; omega
        · split at hx
          · simp at hx; omega
          · split at hx
            · simp at hx
              subst hx
              assumption
            · simp at hx
              rcases hx with h | h | h | h
              · omega
              · omega
              · subst h
                exact hhex _ (by omega)
              · subst h
                exact hhex _ (by omega)

theorem quoteInner_bytes (s : List Nat) :
    ∀ x ∈ quoteInner s, 32 ≤ x ∧ x ≤ 126 := by
  induction s with
  | nil => intro x hx; simp [quoteInner] at hx
  | cons b t ih =>
    intro x hx
    rw [quoteInner_cons] at hx
    rcases List.mem_append.mp hx with h | h
    · exact goQuoteChar_bytes b x h
    · exact ih x h

theorem scanQBody_head34 (r : List Nat) : scanQBody (34 :: r) = some ([], r) := by
  rw [scanQBody.eq_def]
  simp

theorem scanQBody_esc (c2 : Nat) (r : List Nat) :
    scanQBody (92 :: c2 :: r) =
      match scanQBody r with
      | some (b, rest) => some (92 :: c2 :: b, rest)
      | none => none := by
  rw [scanQBody.eq_def]
  norm_num

theorem scanQBody_plain (c : Nat) (r : List Nat)
    (h34 : ¬ c = 34) (h92 : ¬ c = 92) (h10 : ¬ c = 10) :
    scanQBody (c :: r) =
      match scanQBody r with
      | some (b, rest) => some (c :: b, rest)
      | none => none := by
  rw [scanQBody.eq_def]
  simp [h34, h92, h10]

theorem scanQBody_quoteInner (name rest : List Nat) :
    scanQBody (quoteInner name ++ 34 :: rest) = some (quoteInner name, rest) := by
  induction name with
  | nil =>
    show scanQBody (34 :: rest) = some ([], rest)
    exact scanQBody_head34 rest
  | cons b s ih =>
    rw [quoteInner_cons, List.append_assoc]
    rw [goQuoteChar]
    by_cases h34 : b = 34
    · rw [if_pos h34]
      simp only [List.cons_append, List.nil_append]
      rw [scanQBody_esc, ih]
    · by_cases h92 : b = 92
      · rw [if_neg h34, if_pos h92]
        simp only [List.cons_append, List.nil_append]
        rw [scanQBody_esc, ih]
      · by_cases h9 : b = 9
        · rw [if_neg h34, if_neg h92, if_pos h9]
          simp only [List.cons_append, List.nil_append]
          rw [scanQBody_esc, ih]
        · by_cases h10 : b = 10
          · rw [if_neg h34, if_neg h92, if_neg h9, if_pos h10]
            simp only [List.cons_append, List.nil_append]
            rw [scanQBody_esc, ih]
          · by_cases h13 : b = 13
            · rw [if_neg h34, if_neg h92, if_neg h9, if_neg h10, if_pos h13]
              simp only [List.cons_append, List.nil_append]
              rw [scanQBody_esc, ih]
            · by_cases hpr : 32 ≤ b ∧ b ≤ 126
              · rw [if_neg h34, if_neg h92, if_neg h9, if_neg h10, if_neg h13, if_pos hpr]
                simp only [List.cons_append, List.nil_append]
                rw [scanQBody_plain b _ h34 h92 h10, ih]
              · rw [if_neg h34, if_neg h92, if_neg h9, if_neg h10, if_neg h13, if_neg hpr]
                have hx1 : ¬ hexDigit (b / 16 % 16) = 34 ∧ ¬ hexDigit (b / 16 % 16) = 92 ∧
                    ¬ hexDigit (b / 16 % 16) = 10 := by
                  rw [hexDigit]; split <;> omega
                have hx2 : ¬ hexDigit (b % 16) = 34 ∧ ¬ hexDigit (b % 16) = 92 ∧
                    ¬ hexDigit (b % 16) = 10 := by
                  rw [hexDigit]; split <;> omega
                simp only [List.cons_append, List.nil_append]
                rw [scanQBody_esc]
                rw [scanQBody_plain _ _ hx1.1 hx1.2.1 hx1.2.2]
                rw [scanQBody_plain _ _ hx2.1 hx2.2.1 hx2.2.2]
                rw [ih]

theorem hexVal_hexDigit (v : Nat) (hv : v ≤ 15) : hexVal (hexDigit v) = v := by
  rw [hexDigit]
  by_cases h : v < 10
  · rw [if_pos h, hexVal, if_pos (by omega)]
    omega
  · rw [if_neg h, hexVal, if_neg (by omega), if_pos (by omega)]
    omega

theorem isHex_hexDigit (v : Nat) (hv : v ≤ 15) : isHex (hexDigit v) = true := by
  rw [hexDigit, isHex]
  split <;> (rw [decide_eq_true_eq]; omega)

theorem decodeEsc_q (r : List Nat) :
    decodeEsc (92 :: 34 :: r) = Option.map (fun l => 34 :: l) (decodeEsc r) := by
  rw [decodeEsc.eq_def]
  norm_num

theorem decodeEsc_bs (r : List Nat) :
    decodeEsc (92 :: 92 :: r) = Option.map (fun l => 92 :: l) (decodeEsc r) := by
  rw [decodeEsc.eq_def]
  norm_num

theorem decodeEsc_nl (r : List Nat) :
    decodeEsc (92 :: 110 :: r) = Option.map (fun l => 10 :: l) (decodeEsc r) := by
  rw [decodeEsc.eq_def]
  norm_num

theorem decodeEsc_tab (r : List Nat) :
    decodeEsc (92 :: 116 :: r) = Option.map (fun l => 9 :: l) (decodeEsc r) := by
  rw [decodeEsc.eq_def]
  norm_num

theorem decodeEsc_cr (r : List Nat) :
    decodeEsc (92 :: 114 :: r) = Option.map (fun l => 13 :: l) (decodeEsc r) := by
  rw [decodeEsc.eq_def]
  norm_num

theorem decodeEsc_hex (h1 h2 : Nat) (r : List Nat)
    (hh1 : isHex h1 = true) (hh2 : isHex h2 = true) :
    decodeEsc (92 :: 120 :: h1 :: h2 :: r) =
      Option.map (fun l => (hexVal h1 * 16 + hexVal h2) :: l) (decodeEsc r) := by
  rw [decodeEsc.eq_def]
  norm_num [hh1, hh2]

theorem decodeEsc_plain (c : Nat) (r : List Nat) (h92 : ¬ c = 92) (h10 : ¬ c = 10) :
    decodeEsc (c :: r) = Option.map (fun l => c :: l) (decodeEsc r) := by
  rw [decodeEsc.eq_def]
  simp [h92, h10]

theorem decodeEsc_quoteInner (name : List Nat) (hb : ∀ b ∈ name, b < 256) :
    decodeEsc (quoteInner name) = some name := by
  induction name with
  | nil => rw [quoteInner]; rfl
  | cons b s ih =>
    have hbs : ∀ x ∈ s, x < 256 := fun x hx => hb x (List.mem_cons_of_mem b hx)
    have hb256 : b < 256 := hb b (List.mem_cons_self b s)
    have ihs := ih hbs
    rw [quoteInner_cons, goQuoteChar]
    by_cases h34 : b = 34
    · rw [if_pos h34]
      simp only [List.cons_append, List.nil_append]
      rw [decodeEsc_q, ihs, h34]
      rfl
    · by_cases h92 : b = 92
      · rw [if_neg h34, if_pos h92]
        simp only [List.cons_append, List.nil_append]
        rw [decodeEsc_bs, ihs, h92]
        rfl
      · by_cases h9 : b = 9
        · rw [if_neg h34, if_neg h92, if_pos h9]
          simp only [List.cons_append, List.nil_append]
          rw [decodeEsc_tab, ihs, h9]
          rfl
        · by_cases h10 : b = 10
          · rw [if_neg h34, if_neg h92, if_neg h9, if_pos h10]
            simp only [List.cons_append, List.nil_append]
            rw [decodeEsc_nl, ihs, h10]
            rfl
          · by_cases h13 : b = 13
            · rw [if_neg h34, if_neg h92, if_neg h9, if_neg h10, if_pos h13]
              simp only [List.cons_append, List.nil_append]
              rw [decodeEsc_cr, ihs, h13]
              rfl
            · by_cases hpr : 32 ≤ b ∧ b ≤ 126
              · rw [if_neg h34, if_neg h92, if_neg h9, if_neg h10, if_neg h13, if_pos hpr]
                simp only [List.cons_append, List.nil_append]
                rw [decodeEsc_plain b _ h92 h10, ihs]
                rfl
              · rw [if_neg h34, if_neg h92, if_neg h9, if_neg h10, if_neg h13, if_neg hpr]
                simp only [List.cons_append, List.nil_append]
                rw [decodeEsc_hex _ _ _ (isHex_hexDigit _ (by omega))
                  (isHex_hexDigit _ (by omega)), ihs]
                rw [hexVal_hexDigit _ (by omega), hexVal_hexDigit _ (by omega)]
                have : b / 16 % 16 * 16 + b % 16 = b := by omega
                rw [this]
                rfl

theorem scanQString_quoteInner (name rest : List Nat) (hb : ∀ b ∈ name, b < 256) :
    scanQString (34 :: (quoteInner name ++ 34 :: rest)) = some (name, rest) := by
  rw [scanQString, scanQBody_quoteInner]
  show (match decodeEsc (quoteInner name) with
        | some nm => some (nm, rest)
        | none => none) = some (name, rest)
  rw [decodeEsc_quoteInner name hb]

/-! ## Decimal ids: the writer's %d and the reader's digit loop -/

/-- Digits of `n`, most significant first, prepended to `acc`; structural
fuel recursion (any fuel at least `n` yields the digits, and the writer
calls it with fuel `n`). -/
def decRepAux : Nat → Nat → List Nat → List Nat
  | 0, _, acc => acc
  | fuel + 1, n, acc => if n = 0 then acc else decRepAux fuel (n / 10) ((48 + n % 10) :: acc)

/-- ASCII decimal representation of `n` (Go's `%d` for non-negative values). -/
def decRep (n : Nat) : List Nat := if n = 0 then [48] else decRepAux n n []

/-- Signed 64-bit wrap-around, as Go's `int64` arithmetic. -/
def wrap64 (z : Int) : Int :=
  (z + 9223372036854775808) % 18446744073709551616 - 9223372036854775808

/-- The value a run of ASCII digits accumulates onto `a` (one
`num = num*10 + digit` step per byte). -/
def digitsValI (D : List Nat) (a : Int) : Int :=
  D.foldl (fun (x : Int) (b : Nat) => x * 10 + ((b : Int) - 48)) a

/-- The digit-scanning loop shared by `fromTerseFormat` (and intended by
`FromSimpleFormat`): consume leading ASCII digits, accumulating the value
in a Go `int64` (wrap-around modelled by `wrap64`); returns the index of
the first non-digit and the accumulated value. -/
def scanDigits : List Nat → Int → Nat → Nat × Int
  | [], num, i => (i, num)
  | b :: rest, num, i =>
    if 48 ≤ b ∧ b ≤ 57 then scanDigits rest (wrap64 (num * 10 + ((b : Int) - 48))) (i + 1)
    else (i, num)

theorem digitsValI_append (D1 D2 : List Nat) (a : Int) :
    digitsValI (D1 ++ D2) a = digitsValI D2 (digitsValI D1 a) := by
  rw [digitsValI, digitsValI, digitsValI, List.foldl_append]

theorem wrap64_eq (z : Int) (h1 : -(2 ^ 63) ≤ z) (h2 : z < 2 ^ 63) : wrap64 z = z := by
  rw [wrap64]
  omega

theorem digitsValI_ge (D : List Nat) (hD : ∀ b ∈ D, 48 ≤ b ∧ b ≤ 57) :
    ∀ a : Int, 0 ≤ a → a ≤ digitsValI D a := by
  induction D with
  | nil => intro a _; rw [digitsValI]; simp
  | cons b D' ih =>
    intro a ha
    have hb := hD b (List.mem_cons_self b D')
    have hstep : a ≤ a * 10 + ((b : Int) - 48) := by omega
    have h0 : (0 : Int) ≤ a * 10 + ((b : Int) - 48) := by omega
    calc a ≤ a * 10 + ((b : Int) - 48) := hstep
    _ ≤ digitsValI D' (a * 10 + ((b : Int) - 48)) :=
        ih (fun x hx => hD x (List.mem_cons_of_mem b hx)) _ h0
    _ = digitsValI (b :: D') a := rfl

theorem scanDigits_append (D : List Nat) (rest : List Nat) :
    ∀ (num : Int) (i : Nat), (∀ b ∈ D, 48 ≤ b ∧ b ≤ 57) → 0 ≤ num →
    digitsValI D num < 2 ^ 63 →
    scanDigits (D ++ rest) num i = scanDigits rest (digitsValI D num) (i + D.length) := by
  induction D with
  | nil => intro num i _ _ _; rw [digitsValI]; simp
  | cons b D' ih =>
    intro num i hD h0 hbnd
    have hb := hD b (List.mem_cons_self b D')
    have hv : digitsValI (b :: D') num = digitsValI D' (num * 10 + ((b : Int) - 48)) := rfl
    have h0' : (0 : Int) ≤ num * 10 + ((b : Int) - 48) := by omega
    have hmono := digitsValI_ge D' (fun x hx => hD x (List.mem_cons_of_mem b hx)) _ h0'
    have hsmall : num * 10 + ((b : Int) - 48) < 2 ^ 63 := by
      rw [hv] at hbnd
      omega
    show scanDigits (b :: (D' ++ rest)) num i = _
    rw [scanDigits]
    rw [if_pos ⟨hb.1, hb.2⟩]
    rw [wrap64_eq _ (by omega) hsmall]
    rw [ih _ _ (fun x hx => hD x (List.mem_cons_of_mem b hx)) h0' (by rw [hv] at hbnd; exact hbnd)]
    rw [hv]
    have : i + 1 + D'.length = i + (D'.length + 1) := by omega
    rw [this]
    rfl

theorem decRepAux_zero (fuel : Nat) (acc : List Nat) : decRepAux fuel 0 acc = acc := by
  cases fuel <;> simp [decRepAux]

theorem decRepAux_spec : ∀ (fuel n : Nat) (acc : List Nat), 0 < n → n ≤ fuel →
    ∃ D, decRepAux fuel n acc = D ++ acc ∧ D ≠ [] ∧ (∀ b ∈ D, 48 ≤ b ∧ b ≤ 57) ∧
      ∀ a : Int, digitsValI D a = a * 10 ^ D.length + n := by
  intro fuel
  induction fuel with
  | zero => intro n acc hn hle; omega
  | succ fuel ih =>
    intro n acc hn hle
    rw [decRepAux, if_neg (by omega)]
    by_cases hq : n / 10 = 0
    · have hn9 : n ≤ 9 := by omega
      refine ⟨[48 + n % 10], ?_, by simp, ?_, ?_⟩
      · rw [hq, decRepAux_zero]
        rfl
      · intro b hbm
        simp at hbm
        omega
      · intro a
        have hstep : digitsValI [48 + n % 10] a = a * 10 + ((n % 10 : Nat) : Int) := by
          rw [digitsValI]
          simp only [List.foldl_cons, List.foldl_nil]
          omega
        rw [hstep]
        simp only [List.length_singleton, pow_one]
        omega
    · obtain ⟨D', hEq, hne, hdig, hval⟩ := ih (n / 10) ((48 + n % 10) :: acc) (by omega) (by omega)
      refine ⟨D' ++ [48 + n % 10], ?_, by simp, ?_, ?_⟩
      · rw [hEq, List.append_assoc]
        rfl
      · intro b hbm
        rcases List.mem_append.mp hbm with h | h
        · exact hdig b h
        · simp at h
          omega
      · intro a
        rw [digitsValI_append, hval a]
        have hstep : ∀ x : Int, digitsValI [48 + n % 10] x = x * 10 + ((n % 10 : Nat) : Int) := by
          intro x
          rw [digitsValI]
          simp only [List.foldl_cons, List.foldl_nil]
          omega
        rw [hstep]
        simp only [List.length_append, List.length_singleton]
        rw [pow_succ]
        have h4 : ((n / 10 : Nat) : Int) * 10 + ((n % 10 : Nat) : Int) = (n : Int) := by
          omega
        linear_combination h4

theorem scanDigits_decRep_tab (n : Nat) (hn : 0 < n) (hbnd : (n : Int) < 2 ^ 63)
    (rest : List Nat) :
    scanDigits (decRep n ++ 9 :: rest) 0 0 = ((decRep n).length, (n : Int)) := by
  obtain ⟨D, hEq, hne, hdig, hval⟩ := decRepAux_spec n n [] hn (le_refl n)
  have hdr : decRep n = D := by
    rw [decRep, if_neg (by omega), hEq]
    simp
  have hv0 : digitsValI D 0 = (n : Int) := by
    rw [hval 0]
    simp
  rw [hdr]
  rw [scanDigits_append D (9 :: rest) 0 0 hdig (le_refl 0) (by rw [hv0]; exact hbnd)]
  rw [scanDigits, if_neg (by omega), hv0]
  simp

/-! ## The terse format: writer and reader -/

/-- The byte sequence of the package's fixed URL constant
(`http://api.steampowered.com/ISteamApps/GetAppList/v2/`). -/
def URL : List Nat := [104, 116, 116, 112, 58, 47, 47, 97, 112, 105, 46, 115, 116, 101, 97, 109, 112, 111, 119, 101, 114, 101, 100, 46, 99, 111, 109, 47, 73, 83, 116, 101, 97, 109, 65, 112, 112, 115, 47, 71, 101, 116, 65, 112, 112, 76, 105, 115, 116, 47, 118, 50, 47]

/-- The header line the writer emits (without the trailing newline):
`"From <URL> as of <timestamp>"`, quotes included, per `formatHeaderLine`. -/
def headerLineBytes (t : Int) : List Nat :=
  [34, 70, 114, 111, 109, 32] ++ URL ++ [32, 97, 115, 32, 111, 102, 32] ++
    formatTimeUTC t ++ [34]

/-- One entry line's content (without the trailing newline): the decimal
id, a tab, and the name quoted by %q with the outer quotes removed. -/
def entryLineBytes (e : NameAndNumber) : List Nat :=
  decRep e.ID ++ 9 :: quoteInner e.Name

/-- Translated from `WriteTerse`: the header line, then one line per entry
of the by-id view in index order up to `Count` (the loop over
`al.ByAppNum[i]` for `i` below `al.Count`). -/
def WriteTerse (al : AppList) : List Nat :=
  headerLineBytes al.AsOf ++ [10] ++
    (al.ByAppNum.take al.Count).foldr (fun e acc => entryLineBytes e ++ [10] ++ acc) []

/-- The sequence of raw lines `readLine` pulls off a byte stream: chunks
up to and including each newline, plus a final chunk without one if the
stream does not end in a newline. -/
def splitLinesRaw : List Nat → List (List Nat)
  | [] => []
  | b :: rest =>
    if b = 10 then [10] :: splitLinesRaw rest
    else
      match splitLinesRaw rest with
      | [] => [[b]]
      | l :: ls => (b :: l) :: ls

/-- Translated from `readLine`'s terminator strip: remove a trailing
newline (or carriage return plus newline), but only from lines of length
at least 2 (the source's `n > 1` / `n > 2` guards, faithfully kept). -/
def stripNL (raw : List Nat) : List Nat :=
  if 1 < raw.length ∧ raw.getD (raw.length - 1) 0 = 10 then
    if 2 < raw.length ∧ raw.getD (raw.length - 2) 0 = 13 then raw.take (raw.length - 2)
    else raw.take (raw.length - 1)
  else raw

/-- Splits at the first space: the run of bytes containing neither space
nor tab, and the remainder after the space (`[^\t ]+` followed by a literal
space in `regexpHeaderLine`). -/
def splitAtSpace : List Nat → Option (List Nat × List Nat)
  | [] => none
  | b :: r =>
    if b = 32 then some ([], r)
    else if b = 9 then none
    else
      match splitAtSpace r with
      | some (s, rest) => some (b :: s, rest)
      | none => none

/-- The timestamp-and-closing-quote tail of the header pattern: twenty
pattern bytes (digits and literal separators ending in Z), the closing
quote, and end of line; returns the captured timestamp. -/
def matchTS : List Nat → Option (List Nat)
  | [a, b, c, d, da1, e, f, da2, g, h, sp, i, j, co1, k, l, co2, m, n, z, q] =>
    if isDigit a = true ∧ isDigit b = true ∧ isDigit c = true ∧ isDigit d = true ∧
       da1 = 45 ∧ isDigit e = true ∧ isDigit f = true ∧ da2 = 45 ∧
       isDigit g = true ∧ isDigit h = true ∧ sp = 32 ∧
       isDigit i = true ∧ isDigit j = true ∧ co1 = 58 ∧
       isDigit k = true ∧ isDigit l = true ∧ co2 = 58 ∧
       isDigit m = true ∧ isDigit n = true ∧ z = 90 ∧ q = 34 then
      some [a, b, c, d, da1, e, f, da2, g, h, sp, i, j, co1, k, l, co2, m, n, z]
    else none
  | _ => none

/-- Models `regexpHeaderLine.FindSubmatch` on a header line: the literal
opening, a non-empty run without space or tab, the literal ` as of `, the
timestamp pattern and the closing quote; returns the captured timestamp
bytes. -/
def matchHeaderLine (line : List Nat) : Option (List Nat) :=
  match line with
  | 34 :: 70 :: 114 :: 111 :: 109 :: 32 :: rest =>
    match splitAtSpace rest with
    | some (s, rest2) =>
      if s = [] then none
      else
        match rest2 with
        | 97 :: 115 :: 32 :: 111 :: 102 :: 32 :: rest3 => matchTS rest3
        | _ => none
    | none => none
  | _ => none

/-- Results of the terse reader, mirroring its error values: an AppList,
the empty-input ReadError, a TerseFormatError for the header (line 1), or
a TerseFormatError for an entry line (carrying the line number and the
line as the source had mutated it by then). -/
inductive TerseOut where
  | ok (al : AppList)
  | emptyErr
  | headerErr (lineNum : Nat) (line : List Nat)
  | lineErr (lineNum : Nat) (line : List Nat)
deriving DecidableEq, Repr

/-- The name an entry line yields: mutate the tab position to a quote,
append a closing quote (the source's in-place `line[i] = '\x22'` and
`append`), and scan from position `i` with %q; empty on scan failure. -/
def terseName (line : List Nat) (i : Nat) : List Nat :=
  match scanQString ((line.set i 34 ++ [34]).drop i) with
  | some (nm, _) => nm
  | none => []

/-- The entry-line loop of `fromTerseFormat` over the pulled lines:
skip blanks and comments, honour a non-zero `ender` byte, scan the decimal
id, require a tab, rescan the requoted name with %q, validate, insert.
(The source's local variables `line`, `i`, `number`, `name` are inlined as
`stripNL raw`, `scanDigits`'s components and `terseName`.) -/
def terseLines (ender : Nat) : AppList → Nat → List (List Nat) → TerseOut
  | al, _, [] => .ok (finishAppList al)
  | al, lineNum, raw :: rest =>
    if (stripNL raw).length = 0 ∨ (stripNL raw).getD 0 0 = 35 then
      terseLines ender al (lineNum + 1) rest
    else if ender ≠ 0 ∧ (stripNL raw).getD 0 0 = ender ∧ (stripNL raw).length = 1 then
      .ok (finishAppList al)
    else if 0 < (scanDigits (stripNL raw) 0 0).1 ∧
        (scanDigits (stripNL raw) 0 0).1 < (stripNL raw).length ∧
        (stripNL raw).getD (scanDigits (stripNL raw) 0 0).1 0 = 9 then
      if (scanDigits (stripNL raw) 0 0).2 ≤ (0 : Int) ∨
          (maxAppID : Int) < (scanDigits (stripNL raw) 0 0).2 ∨
          terseName (stripNL raw) (scanDigits (stripNL raw) 0 0).1 = [] then
        .lineErr (lineNum + 1)
          ((stripNL raw).set (scanDigits (stripNL raw) 0 0).1 34 ++ [34])
      else
        terseLines ender
          (maybeInsert (scanDigits (stripNL raw) 0 0).2
            (terseName (stripNL raw) (scanDigits (stripNL raw) 0 0).1) al)
          (lineNum + 1) rest
    else .lineErr (lineNum + 1) (stripNL raw)

/-- Translated from `fromTerseFormat` (driven by `FromTerseFormat` /
`FromTerseFile` with `ender = toEOF = 0`): read the header line, match it
against `regexpHeaderLine`, parse its timestamp, then consume entry lines
to end of input and finish the AppList. -/
def fromTerseBytes (input : List Nat) (ender : Nat) : TerseOut :=
  match splitLinesRaw input with
  | [] => .emptyErr
  | raw :: rest =>
    match matchHeaderLine (stripNL raw) with
    | none => .headerErr 1 (stripNL raw)
    | some ts =>
      match parseHeaderTime ts with
      | none => .headerErr 1 (stripNL raw)
      | some t => terseLines ender { emptyAppList with AsOf := t } 1 rest

/-! ## Round-trip lemmas for the terse format -/

theorem splitLinesRaw_cons (b : Nat) (r : List Nat) :
    splitLinesRaw (b :: r) =
      if b = 10 then [10] :: splitLinesRaw r
      else
        match splitLinesRaw r with
        | [] => [[b]]
        | l :: ls => (b :: l) :: ls := by
  rw [splitLinesRaw.eq_def]

theorem splitLinesRaw_line (A rest : List Nat) (hA : ∀ x ∈ A, ¬ x = 10) :
    splitLinesRaw (A ++ 10 :: rest) = (A ++ [10]) :: splitLinesRaw rest := by
  induction A with
  | nil =>
    rw [List.nil_append, splitLinesRaw_cons, if_pos rfl]
    rfl
  | cons a A' ih =>
    have ha : ¬ a = 10 := hA a (List.mem_cons_self a A')
    rw [List.cons_append, splitLinesRaw_cons, if_neg ha,
      ih fun x hx => hA x (List.mem_cons_of_mem a hx)]
    rfl

theorem stripNL_line (A : List Nat) (hne : A ≠ [])
    (hlast : A.getD (A.length - 1) 0 ≠ 13) :
    stripNL (A ++ [10]) = A := by
  have hlen : (A ++ [10]).length = A.length + 1 := by simp
  have hAl : 1 ≤ A.length := by
    cases A with
    | nil => exact absurd rfl hne
    | cons x xs => simp
  have hget1 : (A ++ [10]).getD ((A ++ [10]).length - 1) 0 = 10 := by
    rw [hlen]
    have : A.length + 1 - 1 = A.length := by omega
    rw [this, List.getD_append_right A [10] 0 A.length (le_refl _)]
    simp
  rw [stripNL, if_pos ⟨by omega, hget1⟩]
  by_cases h2 : 2 < (A ++ [10]).length
  · have hA2 : 2 ≤ A.length := by rw [hlen] at h2; omega
    have hget2 : (A ++ [10]).getD ((A ++ [10]).length - 2) 0 = A.getD (A.length - 1) 0 := by
      rw [hlen]
      have he : A.length + 1 - 2 = A.length - 1 := by omega
      rw [he, List.getD_append A [10] 0 (A.length - 1) (by omega)]
    rw [if_neg (by rw [hget2]; exact fun hc => hlast hc.2)]
    rw [hlen]
    have : A.length + 1 - 1 = A.length := by omega
    rw [this]
    exact List.take_left A [10]
  · rw [if_neg (fun hc => h2 hc.1)]
    rw [hlen]
    have : A.length + 1 - 1 = A.length := by omega
    rw [this]
    exact List.take_left A [10]

theorem getD_last_append (A : List Nat) (x : Nat) :
    (A ++ [x]).getD ((A ++ [x]).length - 1) 0 = x := by
  have hlen : (A ++ [x]).length = A.length + 1 := by simp
  rw [hlen]
  have : A.length + 1 - 1 = A.length := by omega
  rw [this, List.getD_append_right A [x] 0 A.length (le_refl _)]
  simp

theorem formatTimeUTC_bytes (t : Int) :
    ∀ x ∈ formatTimeUTC t, 32 ≤ x ∧ x ≤ 90 := by
  intro x hx
  simp [formatTimeUTC, pad4, pad2] at hx
  omega

theorem URL_bytes : ∀ x ∈ URL, 33 ≤ x ∧ x ≤ 126 := by decide

theorem URL_ne_nil : URL ≠ [] := by decide

theorem headerLineBytes_no_nl (t : Int) : ∀ x ∈ headerLineBytes t, ¬ x = 10 := by
  intro x hx
  rw [headerLineBytes] at hx
  simp only [List.append_assoc, List.mem_append] at hx
  rcases hx with h | h | h | h | h
  · simp at h; omega
  · have := URL_bytes x h; omega
  · simp at h; omega
  · have := formatTimeUTC_bytes t x h; omega
  · simp at h; omega

theorem decRep_digits (n : Nat) : ∀ x ∈ decRep n, 48 ≤ x ∧ x ≤ 57 := by
  intro x hx
  by_cases h0 : n = 0
  · rw [decRep, if_pos h0] at hx
    simp at hx
    omega
  · obtain ⟨D, hEq, _, hdig, _⟩ := decRepAux_spec n n [] (by omega) (le_refl n)
    rw [decRep, if_neg h0, hEq] at hx
    simp at hx
    exact hdig x hx

theorem decRep_ne_nil (n : Nat) : decRep n ≠ [] := by
  by_cases h0 : n = 0
  · rw [decRep, if_pos h0]; simp
  · obtain ⟨D, hEq, hne, _, _⟩ := decRepAux_spec n n [] (by omega) (le_refl n)
    rw [decRep, if_neg h0, hEq]
    simp
    intro hc
    exact hne hc

theorem quoteInner_ne_nil (s : List Nat) (hs : s ≠ []) : quoteInner s ≠ [] := by
  cases s with
  | nil => exact absurd rfl hs
  | cons b t =>
    rw [quoteInner_cons]
    have : goQuoteChar b ≠ [] := by
      rw [goQuoteChar]
      split
      · simp
      · split
        · simp
        · split
          · simp
          · split
            · simp
            · split
              · simp
              · split
                · simp
                · simp
    intro hc
    rcases List.append_eq_nil.mp hc with ⟨h1, _⟩
    exact this h1

theorem set_append_len {α : Type} (D : List α) (x y : α) (Q : List α) :
    (D ++ x :: Q).set D.length y = D ++ y :: Q := by
  induction D with
  | nil => rfl
  | cons d D' ih =>
    show d :: (D' ++ x :: Q).set D'.length y = d :: (D' ++ y :: Q)
    rw [ih]

theorem matchTS_format (t : Int) :
    matchTS (formatTimeUTC t ++ [34]) = some (formatTimeUTC t) := by
  have hdig : ∀ k : Nat, isDigit (48 + k % 10) = true := by
    intro k
    rw [isDigit, decide_eq_true_eq]
    omega
  simp only [formatTimeUTC, pad4, pad2, List.cons_append, List.nil_append, matchTS]
  rw [if_pos]
  simp [hdig]

theorem splitAtSpace_cons (b : Nat) (r : List Nat) :
    splitAtSpace (b :: r) =
      if b = 32 then some ([], r)
      else if b = 9 then none
      else
        match splitAtSpace r with
        | some (s, rest) => some (b :: s, rest)
        | none => none := by
  rw [splitAtSpace.eq_def]

theorem splitAtSpace_run (S rest : List Nat) (hS : ∀ x ∈ S, ¬ x = 32 ∧ ¬ x = 9) :
    splitAtSpace (S ++ 32 :: rest) = some (S, rest) := by
  induction S with
  | nil =>
    rw [List.nil_append, splitAtSpace_cons, if_pos rfl]
  | cons b S' ih =>
    have hb := hS b (List.mem_cons_self b S')
    rw [List.cons_append, splitAtSpace_cons, if_neg hb.1, if_neg hb.2,
      ih fun x hx => hS x (List.mem_cons_of_mem b hx)]

theorem matchHeaderLine_format (t : Int) :
    matchHeaderLine (headerLineBytes t) = some (formatTimeUTC t) := by
  have hshape : headerLineBytes t =
      34 :: 70 :: 114 :: 111 :: 109 :: 32 ::
        (URL ++ 32 :: ([97, 115, 32, 111, 102, 32] ++ (formatTimeUTC t ++ [34]))) := by
    rw [headerLineBytes]
    simp [List.append_assoc]
  rw [hshape, matchHeaderLine]
  rw [splitAtSpace_run URL _ (by decide)]
  show (if URL = [] then none
        else match ([97, 115, 32, 111, 102, 32] ++ (formatTimeUTC t ++ [34]) : List Nat) with
          | 97 :: 115 :: 32 :: 111 :: 102 :: 32 :: rest3 => matchTS rest3
          | _ => none) = some (formatTimeUTC t)
  rw [if_neg URL_ne_nil]
  show matchTS (formatTimeUTC t ++ [34]) = some (formatTimeUTC t)
  exact matchTS_format t

theorem getD_last_append2 (A B : List Nat) (hB : B ≠ []) :
    (A ++ B).getD ((A ++ B).length - 1) 0 = B.getD (B.length - 1) 0 := by
  have hBl : 1 ≤ B.length := by
    cases B with
    | nil => exact absurd rfl hB
    | cons x xs => simp
  rw [List.length_append]
  have he : A.length + B.length - 1 = A.length + (B.length - 1) := by omega
  rw [he, List.getD_append_right A B 0 _ (by omega)]
  congr 1
  omega

theorem terseLines_writeBody (entries : List NameAndNumber)
    (hid : ∀ e ∈ entries, 0 < e.ID ∧ e.ID ≤ maxAppID)
    (hname : ∀ e ∈ entries, e.Name ≠ [] ∧ ∀ b ∈ e.Name, b < 256) :
    ∀ (al : AppList) (lineNum : Nat),
      terseLines 0 al lineNum
        (splitLinesRaw (entries.foldr (fun e acc => entryLineBytes e ++ [10] ++ acc) [])) =
      .ok (finishAppList (insertAll (entries.map fun e => ((e.ID : Int), e.Name)) al)) := by
  induction entries with
  | nil =>
    intro al lineNum
    rfl
  | cons e tail ih =>
    intro al lineNum
    have hide := hid e (List.mem_cons_self e tail)
    have hnamee := hname e (List.mem_cons_self e tail)
    have hidt : ∀ x ∈ tail, 0 < x.ID ∧ x.ID ≤ maxAppID :=
      fun x hx => hid x (List.mem_cons_of_mem e hx)
    have hnamet : ∀ x ∈ tail, x.Name ≠ [] ∧ ∀ b ∈ x.Name, b < 256 :=
      fun x hx => hname x (List.mem_cons_of_mem e hx)
    have hMn : maxAppID = 2147483647 := by norm_num [maxAppID]
    have hQne : quoteInner e.Name ≠ [] := quoteInner_ne_nil e.Name hnamee.1
    have hDne : decRep e.ID ≠ [] := decRep_ne_nil e.ID
    have hDlen : 1 ≤ (decRep e.ID).length := by
      cases hD : decRep e.ID with
      | nil => exact absurd hD hDne
      | cons x xs => simp
    have hQlen : 1 ≤ (quoteInner e.Name).length := by
      cases hQ : quoteInner e.Name with
      | nil => exact absurd hQ hQne
      | cons x xs => simp
    have hfold : (e :: tail).foldr (fun x acc => entryLineBytes x ++ [10] ++ acc) [] =
        entryLineBytes e ++ 10 :: tail.foldr (fun x acc => entryLineBytes x ++ [10] ++ acc) [] := by
      simp
    rw [hfold]
    have hno10 : ∀ x ∈ entryLineBytes e, ¬ x = 10 := by
      intro x hx
      rw [entryLineBytes] at hx
      rcases List.mem_append.mp hx with h | h
      · have := decRep_digits e.ID x h; omega
      · rcases List.mem_cons.mp h with h' | h'
        · omega
        · have := quoteInner_bytes e.Name x h'; omega
    rw [splitLinesRaw_line _ _ hno10]
    have hEne : entryLineBytes e ≠ [] := by
      rw [entryLineBytes]
      intro hc
      rcases List.append_eq_nil.mp hc with ⟨h1, _⟩
      exact hDne h1
    have hlast : (entryLineBytes e).getD ((entryLineBytes e).length - 1) 0 ≠ 13 := by
      rw [entryLineBytes, getD_last_append2 _ _ (by simp)]
      have hc : (9 :: quoteInner e.Name).getD ((9 :: quoteInner e.Name).length - 1) 0 =
          (quoteInner e.Name).getD ((quoteInner e.Name).length - 1) 0 := by
        have hl : (9 :: quoteInner e.Name).length - 1 = ((quoteInner e.Name).length - 1) + 1 := by
          simp; omega
        rw [hl]
        rfl
      rw [hc]
      have hmem : (quoteInner e.Name).getD ((quoteInner e.Name).length - 1) 0 ∈
          quoteInner e.Name := by
        rw [List.getD_eq_getElem _ _ (by omega)]
        exact List.getElem_mem _
      have := quoteInner_bytes e.Name _ hmem
      omega
    have hstrip : stripNL (entryLineBytes e ++ [10]) = entryLineBytes e :=
      stripNL_line _ hEne hlast
    rw [terseLines, hstrip]
    have hlen : (entryLineBytes e).length =
        (decRep e.ID).length + 1 + (quoteInner e.Name).length := by
      rw [entryLineBytes]
      simp
      omega
    have hfirst : (entryLineBytes e).getD 0 0 ∈ decRep e.ID := by
      rw [entryLineBytes, List.getD_append _ _ _ _ (by omega),
        List.getD_eq_getElem _ _ (by omega)]
      exact List.getElem_mem _
    have hcond1 : ¬ ((entryLineBytes e).length = 0 ∨ (entryLineBytes e).getD 0 0 = 35) := by
      have := decRep_digits e.ID _ hfirst
      rw [hlen]
      push_neg
      constructor
      · omega
      · omega
    rw [if_neg hcond1]
    have hcond2 : ¬ ((0 : Nat) ≠ 0 ∧ (entryLineBytes e).getD 0 0 = 0 ∧
        (entryLineBytes e).length = 1) := by
      intro hc
      exact hc.1 rfl
    rw [if_neg hcond2]
    have hscan : scanDigits (entryLineBytes e) 0 0 = ((decRep e.ID).length, (e.ID : Int)) := by
      rw [show entryLineBytes e = decRep e.ID ++ 9 :: quoteInner e.Name from rfl]
      exact scanDigits_decRep_tab e.ID hide.1 (by rw [hMn] at hide; omega) _
    have hp1 : (scanDigits (entryLineBytes e) 0 0).1 = (decRep e.ID).length := by
      rw [hscan]
    have hp2 : (scanDigits (entryLineBytes e) 0 0).2 = (e.ID : Int) := by
      rw [hscan]
    rw [hp1, hp2]
    have hgd9 : (entryLineBytes e).getD (decRep e.ID).length 0 = 9 := by
      rw [entryLineBytes, List.getD_append_right _ _ _ _ (le_refl _)]
      simp
    rw [if_pos ⟨by omega, by omega, hgd9⟩]
    have hnm : terseName (entryLineBytes e) (decRep e.ID).length = e.Name := by
      rw [terseName]
      rw [show entryLineBytes e = decRep e.ID ++ 9 :: quoteInner e.Name from rfl]
      rw [set_append_len]
      rw [show (decRep e.ID ++ 34 :: quoteInner e.Name) ++ [34] =
        decRep e.ID ++ (34 :: (quoteInner e.Name ++ 34 :: [])) from by simp]
      rw [List.drop_left]
      rw [scanQString_quoteInner e.Name [] hnamee.2]
    rw [hnm]
    have hcond4 : ¬ ((e.ID : Int) ≤ (0 : Int) ∨ (maxAppID : Int) < (e.ID : Int) ∨
        e.Name = []) := by
      push_neg
      refine ⟨by omega, ?_, hnamee.1⟩
      rw [hMn] at hide ⊢
      push_cast
      omega
    rw [if_neg hcond4]
    rw [ih hidt hnamet (maybeInsert (e.ID : Int) e.Name al) (lineNum + 1)]
    rfl

theorem validEntries_map (entries : List NameAndNumber)
    (hid : ∀ e ∈ entries, 0 < e.ID ∧ e.ID ≤ maxAppID) :
    validEntries (entries.map fun e => ((e.ID : Int), e.Name)) = entries := by
  induction entries with
  | nil => rfl
  | cons e t ih =>
    have hide := hid e (List.mem_cons_self e t)
    have hMn : maxAppID = 2147483647 := by norm_num [maxAppID]
    have iht := ih fun x hx => hid x (List.mem_cons_of_mem e hx)
    have hcc : 0 < ((e.ID : Int), e.Name).1 ∧ ((e.ID : Int), e.Name).1 ≤ (maxAppID : Int) := by
      rw [hMn] at hide ⊢
      constructor
      · push_cast; omega
      · push_cast; omega
    rw [validEntries] at iht ⊢
    rw [List.map_cons, List.filterMap_cons]
    rw [if_pos hcc]
    rw [iht]
    have : ({ Name := ((e.ID : Int), e.Name).2, ID := ((e.ID : Int), e.Name).1.toNat }
        : NameAndNumber) = e := by
      show ({ Name := e.Name, ID := ((e.ID : Int)).toNat } : NameAndNumber) = e
      rw [Int.toNat_natCast]
    rw [this]

/-- An AppList whose Count and ByAppNum are consistent in the claim's
sense: Count real entries followed by the sentinel (the name views are
irrelevant to the writer and may be anything). -/
def consistentAppList (entries mc uc : List NameAndNumber) (asOf : Int) : AppList :=
  { AsOf := asOf, Count := entries.length, ByAppNum := entries ++ [nullItem],
    ByNameMC := mc, ByNameUC := uc }

/-- C3 (amended): for every AppList whose Count and ByAppNum are
consistent (Count real entries followed by the sentinel), whose real
entries all carry non-empty names, and whose AsOf lies in the range the
header layout can represent (years 1 to 9999), writing with the terse
writer and re-reading with the terse reader succeeds and reproduces the
same unordered set of (id, name) pairs and the same AsOf to the second. -/
theorem WriteTerse_fromTerse_roundtrip (entries : List NameAndNumber) (asOf : Int)
    (mc uc : List NameAndNumber)
    (hid : ∀ e ∈ entries, 0 < e.ID ∧ e.ID ≤ maxAppID)
    (hname : ∀ e ∈ entries, e.Name ≠ [] ∧ ∀ b ∈ e.Name, b < 256)
    (hlo : -62135596800 ≤ asOf) (hhi : asOf < 253402300800) :
    ∃ al',
      fromTerseBytes (WriteTerse (consistentAppList entries mc uc asOf)) 0 =
        TerseOut.ok al' ∧
      al'.AsOf = asOf ∧ al'.Count = entries.length ∧
      (al'.ByAppNum.take al'.Count).Perm entries := by
  have htake : (consistentAppList entries mc uc asOf).ByAppNum.take
      (consistentAppList entries mc uc asOf).Count = entries := by
    show (entries ++ [nullItem]).take entries.length = entries
    exact List.take_left entries [nullItem]
  have hwt : WriteTerse (consistentAppList entries mc uc asOf) =
      headerLineBytes asOf ++ 10 ::
        entries.foldr (fun e acc => entryLineBytes e ++ [10] ++ acc) [] := by
    rw [WriteTerse, htake]
    simp [consistentAppList]
  have hsplit : splitLinesRaw (headerLineBytes asOf ++ 10 ::
      entries.foldr (fun e acc => entryLineBytes e ++ [10] ++ acc) []) =
      (headerLineBytes asOf ++ [10]) ::
        splitLinesRaw (entries.foldr (fun e acc => entryLineBytes e ++ [10] ++ acc) []) :=
    splitLinesRaw_line _ _ (headerLineBytes_no_nl asOf)
  have hhdr_ne : headerLineBytes asOf ≠ [] := by
    rw [headerLineBytes]
    simp
  have hhdr_last : (headerLineBytes asOf).getD ((headerLineBytes asOf).length - 1) 0 ≠ 13 := by
    rw [headerLineBytes]
    have := getD_last_append
      ([34, 70, 114, 111, 109, 32] ++ URL ++ [32, 97, 115, 32, 111, 102, 32] ++
        formatTimeUTC asOf) 34
    rw [this]
    omega
  have hstriph : stripNL (headerLineBytes asOf ++ [10]) = headerLineBytes asOf :=
    stripNL_line _ hhdr_ne hhdr_last
  refine ⟨finishAppList (insertAll (entries.map fun e => ((e.ID : Int), e.Name))
    { emptyAppList with AsOf := asOf }), ?_, ?_, ?_, ?_⟩
  · rw [hwt]
    simp only [fromTerseBytes, hsplit, hstriph, matchHeaderLine_format,
      parse_format_time asOf hlo hhi, terseLines_writeBody entries hid hname]
  · obtain ⟨_, _, _, hAs, _⟩ := insertAll_views (entries.map fun e => ((e.ID : Int), e.Name))
      { emptyAppList with AsOf := asOf }
    show (insertAll (entries.map fun e => ((e.ID : Int), e.Name))
      { emptyAppList with AsOf := asOf }).AsOf = asOf
    rw [hAs]
  · obtain ⟨hAN, _, _, _, _⟩ := insertAll_views (entries.map fun e => ((e.ID : Int), e.Name))
      { emptyAppList with AsOf := asOf }
    show (insertAll (entries.map fun e => ((e.ID : Int), e.Name))
      { emptyAppList with AsOf := asOf }).ByAppNum.length = entries.length
    rw [hAN]
    show ([] ++ validEntries (entries.map fun (e : NameAndNumber) =>
      ((e.ID : Int), e.Name))).length = _
    rw [List.nil_append, validEntries_map entries hid]
  · obtain ⟨hAN, _, _, _, _⟩ := insertAll_views (entries.map fun e => ((e.ID : Int), e.Name))
      { emptyAppList with AsOf := asOf }
    have hAN2 : (insertAll (entries.map fun e => ((e.ID : Int), e.Name))
        { emptyAppList with AsOf := asOf }).ByAppNum = entries := by
      rw [hAN]
      show [] ++ validEntries (entries.map fun e => ((e.ID : Int), e.Name)) = entries
      rw [List.nil_append, validEntries_map entries hid]
    show ((goSort lessByAppNum (insertAll (entries.map fun e => ((e.ID : Int), e.Name))
        { emptyAppList with AsOf := asOf }).ByAppNum ++ [nullItem]).take
        (insertAll (entries.map fun e => ((e.ID : Int), e.Name))
        { emptyAppList with AsOf := asOf }).ByAppNum.length).Perm entries
    rw [hAN2]
    have hlen2 : entries.length = (goSort lessByAppNum entries).length :=
      ((List.perm_insertionSort _ entries).length_eq).symm
    rw [hlen2, List.take_left]
    exact List.perm_insertionSort _ entries

/-- Witness for the amended round-trip at a one-entry list: id 10, name "A",
AsOf the Unix epoch. -/
theorem WriteTerse_fromTerse_roundtrip_witness :
    (∀ e ∈ [NameAndNumber.mk [65] 10], 0 < e.ID ∧ e.ID ≤ maxAppID) ∧
    (∀ e ∈ [NameAndNumber.mk [65] 10], e.Name ≠ [] ∧ ∀ b ∈ e.Name, b < 256) ∧
    (-62135596800 ≤ (0 : Int)) ∧ ((0 : Int) < 253402300800) ∧
    (∃ al',
      fromTerseBytes (WriteTerse (consistentAppList [NameAndNumber.mk [65] 10] [] [] 0)) 0 =
        TerseOut.ok al' ∧
      al'.AsOf = 0 ∧ al'.Count = [NameAndNumber.mk [65] 10].length ∧
      (al'.ByAppNum.take al'.Count).Perm [NameAndNumber.mk [65] 10]) :=
  ⟨by decide, by decide, by decide, by decide,
    WriteTerse_fromTerse_roundtrip [NameAndNumber.mk [65] 10] 0 [] []
      (by decide) (by decide) (by decide) (by decide)⟩

/-- C3, counterexample to the unamended claim: a consistent AppList with one
real entry whose name is empty (id 5, name "") writes as the line `5\t""`,
and the terse reader rejects that line (its `name == ""` guard), returning a
TerseFormatError for line 2 instead of reproducing the entry set. -/
theorem WriteTerse_fromTerse_empty_name_counterexample :
    fromTerseBytes (WriteTerse (consistentAppList [NameAndNumber.mk [] 5] [] [] 0)) 0 =
      TerseOut.lineErr 2 [53, 34, 34] := by decide

/- ============ The cache selector (`FromCacheOrWeb`, BigAppList.go) ============ -/

/-- Match a literal byte sequence at the front of the data, returning the
remainder on success; the Bool records whether a failure happened because
the data ran out (rather than a byte mismatching). -/
def matchLit : List Nat → List Nat → Option (List Nat) × Bool
  | [], data => (some data, false)
  | _ :: _, [] => (none, true)
  | l :: ls, d :: ds => if d = l then matchLit ls ds else (none, false)

/-- The maximal run of ASCII digits at the front, and the remainder. -/
def takeDigits : List Nat → List Nat × List Nat
  | [] => ([], [])
  | b :: bs =>
    if 48 ≤ b ∧ b ≤ 57 then
      match takeDigits bs with
      | (ds, rest) => (b :: ds, rest)
    else ([], b :: bs)

/-- The value of a run of ASCII digits, most significant first. -/
def digitsValN (ds : List Nat) : Nat :=
  ds.foldl (fun a b => a * 10 + (b - 48)) 0

/-- The bytes of "SteamAppList@". -/
def cacheNamePrefix : List Nat :=
  [83, 116, 101, 97, 109, 65, 112, 112, 76, 105, 115, 116, 64]

/-- The bytes of ".txt". -/
def txtSuffix : List Nat := [46, 116, 120, 116]

/-- `regexpCacheName` (`^SteamAppList@(\d+)\.txt$`) followed by
`strconv.ParseInt(m[1], 10, 64)`: the timestamp embedded in a cache file
name, or none when the name does not match or the digits overflow int64
(ParseInt then errors and `FromCacheOrWeb` skips the file). -/
def cacheNameTimestamp (name : List Nat) : Option Int :=
  match (matchLit cacheNamePrefix name).1 with
  | none => none
  | some rest =>
    match takeDigits rest with
    | (ds, rest2) =>
      if ds = [] then none
      else if rest2 = txtSuffix then
        if digitsValN ds ≤ 9223372036854775807 then some ((digitsValN ds : Int))
        else none
      else none

/-- One step of `FromCacheOrWeb`'s directory scan: replace the best
candidate exactly when this name matches and its timestamp is strictly
greater than `latestTime` (which starts at 0). -/
def cacheScanStep (acc : Option (List Nat) × Int) (name : List Nat) :
    Option (List Nat) × Int :=
  match cacheNameTimestamp name with
  | some t => if acc.2 < t then (some name, t) else acc
  | none => acc

/-- The whole scan: `newestFile`/`latestTime` after the loop over the
directory entries. -/
def selectNewest (names : List (List Nat)) : Option (List Nat) × Int :=
  names.foldl cacheScanStep (none, 0)

/-- The environment `FromCacheOrWeb` runs in: the clock, the cache
directory's file names, and what loading each file with the terse reader
would produce. -/
structure CacheEnv where
  now : Int
  names : List (List Nat)
  load : List Nat → TerseOut

/-- The four ways `FromCacheOrWeb` can come out: fall through to
`fetchAndCache`, propagate a load error, report the AsOf/file-name
mismatch CacheError, or return the loaded AppList. -/
inductive FCWResult where
  | fetch
  | loadErr
  | integrityErr
  | ok (al : AppList)
deriving DecidableEq, Repr

/-- The tail of `FromCacheOrWeb` once a fresh-enough file was selected:
load it, propagate errors, and cross-check `al.AsOf.Unix() != latestTime`. -/
def loadBranch (env : CacheEnv) (name : List Nat) (t : Int) : FCWResult :=
  match env.load name with
  | TerseOut.ok al => if al.AsOf ≠ t then FCWResult.integrityErr else FCWResult.ok al
  | _ => FCWResult.loadErr

/-- `FromCacheOrWeb` (BigAppList.go lines 87-122): scan the directory for
the newest matching cache file; fetch when none was selected or it is
older than `cutoff = now - 3600*maxAgeHours`; otherwise load it. -/
def fromCacheOrWeb (env : CacheEnv) (maxAgeHours : Nat) : FCWResult :=
  match selectNewest env.names with
  | (none, _) => FCWResult.fetch
  | (some name, latestTime) =>
    if latestTime < env.now - 3600 * (maxAgeHours : Int) then FCWResult.fetch
    else loadBranch env name latestTime

/-- The timestamps of the file names the cache-name pattern accepts. -/
def matchingTimes (names : List (List Nat)) : List Int :=
  names.filterMap cacheNameTimestamp

/-- The largest matching timestamp, folded as the scan does (0 when none
match). -/
def maxCacheTime (names : List (List Nat)) : Int :=
  (matchingTimes names).foldl max 0

theorem fromCacheOrWeb_eq (env : CacheEnv) (mah : Nat) :
    fromCacheOrWeb env mah =
      match selectNewest env.names with
      | (none, _) => FCWResult.fetch
      | (some name, latestTime) =>
        if latestTime < env.now - 3600 * (mah : Int) then FCWResult.fetch
        else loadBranch env name latestTime := rfl

theorem foldl_max_init (ts : List Int) : ∀ a : Int, a ≤ ts.foldl max a := by
  induction ts with
  | nil => intro a; exact le_refl a
  | cons x xs ih => intro a; exact le_trans (le_max_left a x) (ih (max a x))

theorem foldl_max_le (ts : List Int) :
    ∀ (a t : Int), t ∈ ts → t ≤ ts.foldl max a := by
  induction ts with
  | nil => intro a t h; exact absurd h (List.not_mem_nil t)
  | cons x xs ih =>
    intro a t h
    rw [List.foldl_cons]
    rcases List.mem_cons.mp h with rfl | hm
    · exact le_trans (le_max_right a t) (foldl_max_init xs (max a t))
    · exact ih (max a x) t hm

theorem selectNewest_aux (names : List (List Nat)) :
    ∀ acc : Option (List Nat) × Int,
      (acc.1 = none → acc.2 = 0) →
      (∀ n0, acc.1 = some n0 → cacheNameTimestamp n0 = some acc.2) →
      (names.foldl cacheScanStep acc).2 =
          (names.filterMap cacheNameTimestamp).foldl max acc.2 ∧
      ((names.foldl cacheScanStep acc).1 = none →
        (names.foldl cacheScanStep acc).2 = 0) ∧
      (∀ n0, (names.foldl cacheScanStep acc).1 = some n0 →
        cacheNameTimestamp n0 = some (names.foldl cacheScanStep acc).2 ∧
        (n0 ∈ names ∨ acc.1 = some n0)) := by
  induction names with
  | nil =>
    intro acc h1 h2
    exact ⟨rfl, h1, fun n0 h => ⟨h2 n0 h, Or.inr h⟩⟩
  | cons name names ih =>
    intro acc h1 h2
    rw [List.foldl_cons]
    rcases hct : cacheNameTimestamp name with _ | t
    · have hstep : cacheScanStep acc name = acc := by
        unfold cacheScanStep
        rw [hct]
      rw [hstep, List.filterMap_cons_none hct]
      obtain ⟨a, b, c⟩ := ih acc h1 h2
      refine ⟨a, b, fun n0 h => ⟨(c n0 h).1, ?_⟩⟩
      exact (c n0 h).2.elim (fun hm => Or.inl (List.mem_cons_of_mem _ hm)) Or.inr
    · have hstep : cacheScanStep acc name =
          if acc.2 < t then (some name, t) else acc := by
        unfold cacheScanStep
        rw [hct]
      rw [List.filterMap_cons_some hct, List.foldl_cons]
      by_cases hlt : acc.2 < t
      · rw [hstep, if_pos hlt]
        have h1' : (some name, t).1 = none → ((some name, t) : Option (List Nat) × Int).2 = 0 := by
          intro h
          exact absurd h (by simp)
        have h2' : ∀ n0, ((some name, t) : Option (List Nat) × Int).1 = some n0 →
            cacheNameTimestamp n0 = some ((some name, t) : Option (List Nat) × Int).2 := by
          intro n0 h
          have hn : name = n0 := by
            simpa using h
          rw [← hn]
          exact hct
        obtain ⟨a, b, c⟩ := ih (some name, t) h1' h2'
        refine ⟨?_, b, ?_⟩
        · rw [a, max_eq_right (le_of_lt hlt)]
        · intro n0 h
          obtain ⟨hc1, hc2⟩ := c n0 h
          refine ⟨hc1, Or.inl ?_⟩
          rcases hc2 with hm | he
          · exact List.mem_cons_of_mem _ hm
          · have hn : name = n0 := by
              simpa using he
            rw [← hn]
            exact List.mem_cons_self name names
      · rw [hstep, if_neg hlt]
        obtain ⟨a, b, c⟩ := ih acc h1 h2
        have hmax : max acc.2 t = acc.2 := max_eq_left (le_of_not_lt hlt)
        refine ⟨by rw [a, hmax], b, fun n0 h => ⟨(c n0 h).1, ?_⟩⟩
        exact (c n0 h).2.elim (fun hm => Or.inl (List.mem_cons_of_mem _ hm)) Or.inr

theorem selectNewest_props (names : List (List Nat)) :
    (selectNewest names).2 = maxCacheTime names ∧
    ((selectNewest names).1 = none → (selectNewest names).2 = 0) ∧
    (∀ n0, (selectNewest names).1 = some n0 →
      cacheNameTimestamp n0 = some (selectNewest names).2 ∧ n0 ∈ names) := by
  obtain ⟨a, b, c⟩ := selectNewest_aux names (none, 0) (fun _ => rfl) (fun n0 h => nomatch h)
  refine ⟨a, b, fun n0 h => ?_⟩
  obtain ⟨hc1, hc2⟩ := c n0 h
  exact ⟨hc1, hc2.elim id (fun he => nomatch he)⟩

theorem loadBranch_ne_fetch (env : CacheEnv) (name : List Nat) (t : Int) :
    loadBranch env name t ≠ FCWResult.fetch := by
  unfold loadBranch
  rcases henv : env.load name with al | _ | ⟨ln, li⟩ | ⟨ln, li⟩
  · show (if al.AsOf ≠ t then FCWResult.integrityErr else FCWResult.ok al) ≠ FCWResult.fetch
    by_cases hAs : al.AsOf ≠ t
    · rw [if_pos hAs]
      exact fun h => FCWResult.noConfusion h
    · rw [if_neg hAs]
      exact fun h => FCWResult.noConfusion h
  · exact fun h => FCWResult.noConfusion h
  · exact fun h => FCWResult.noConfusion h
  · exact fun h => FCWResult.noConfusion h

/-- C4 (amended): when every matching cache timestamp is positive (as real
fetch-second names are), `FromCacheOrWeb` fetches exactly when no file name
matches or the largest matching timestamp is below `now - 3600*maxAgeHours`,
and otherwise it selects a directory entry carrying the largest matching
timestamp and proceeds to load that file. -/
theorem fromCacheOrWeb_amended (env : CacheEnv) (maxAgeHours : Nat)
    (hpos : ∀ t ∈ matchingTimes env.names, 0 < t) :
    (fromCacheOrWeb env maxAgeHours = FCWResult.fetch ↔
      matchingTimes env.names = [] ∨
        maxCacheTime env.names < env.now - 3600 * (maxAgeHours : Int)) ∧
    (fromCacheOrWeb env maxAgeHours ≠ FCWResult.fetch →
      ∃ name, name ∈ env.names ∧
        cacheNameTimestamp name = some (maxCacheTime env.names) ∧
        fromCacheOrWeb env maxAgeHours =
          loadBranch env name (maxCacheTime env.names)) := by
  have hprops := selectNewest_props env.names
  cases hsel : selectNewest env.names with
  | mk o ℓ =>
    rw [hsel] at hprops
    obtain ⟨hmax, hnone, hsome⟩ := hprops
    cases o with
    | none =>
      have hfetch : fromCacheOrWeb env maxAgeHours = FCWResult.fetch := by
        rw [fromCacheOrWeb_eq, hsel]
      have hl0 : ℓ = 0 := hnone rfl
      have hempty : matchingTimes env.names = [] := by
        rcases hmt : matchingTimes env.names with _ | ⟨t, ts⟩
        · rfl
        · exfalso
          have htmem : t ∈ matchingTimes env.names := by
            rw [hmt]
            exact List.mem_cons_self t ts
          have hpos' := hpos t htmem
          have hle : t ≤ maxCacheTime env.names := by
            unfold maxCacheTime
            exact foldl_max_le (matchingTimes env.names) 0 t htmem
          rw [← hmax, hl0] at hle
          omega
      refine ⟨iff_of_true hfetch (Or.inl hempty), fun hne => absurd hfetch hne⟩
    | some name =>
      obtain ⟨hc1, hmem⟩ := hsome name rfl
      have hℓ : ℓ = maxCacheTime env.names := hmax
      have hred : fromCacheOrWeb env maxAgeHours =
          if ℓ < env.now - 3600 * (maxAgeHours : Int) then FCWResult.fetch
          else loadBranch env name ℓ := by
        rw [fromCacheOrWeb_eq, hsel]
      have hℓmem : ℓ ∈ matchingTimes env.names := by
        unfold matchingTimes
        exact List.mem_filterMap.mpr ⟨name, hmem, hc1⟩
      by_cases hc : ℓ < env.now - 3600 * (maxAgeHours : Int)
      · have hfetch : fromCacheOrWeb env maxAgeHours = FCWResult.fetch := by
          rw [hred, if_pos hc]
        refine ⟨iff_of_true hfetch (Or.inr (by rw [← hℓ]; exact hc)),
          fun hne => absurd hfetch hne⟩
      · have hload : fromCacheOrWeb env maxAgeHours = loadBranch env name ℓ := by
          rw [hred, if_neg hc]
        have hnf : fromCacheOrWeb env maxAgeHours ≠ FCWResult.fetch := by
          rw [hload]
          exact loadBranch_ne_fetch env name ℓ
        refine ⟨iff_of_false hnf ?_, fun _ => ⟨name, hmem, by rw [← hℓ]; exact hc1,
          by rw [← hℓ]; exact hload⟩⟩
        intro hor
        rcases hor with he | hlt
        · rw [he] at hℓmem
          exact absurd hℓmem (List.not_mem_nil ℓ)
        · rw [← hℓ] at hlt
          exact hc hlt

/-- A cache file name with timestamp 5: "SteamAppList@5.txt". -/
def cacheName5 : List Nat := cacheNamePrefix ++ [53] ++ txtSuffix

/-- A cache environment with one matching file, timestamp 5, clock at 10;
loading is never reached in the witnesses that use it. -/
def envTs5 : CacheEnv :=
  { now := 10, names := [cacheName5], load := fun _ => TerseOut.emptyErr }

/-- Witness for the amended cache-selection theorem at `envTs5` with
maxAgeHours 3 (cutoff 10 - 10800, so the file is fresh). -/
theorem fromCacheOrWeb_amended_witness :
    (∀ t ∈ matchingTimes envTs5.names, 0 < t) ∧
    ((fromCacheOrWeb envTs5 3 = FCWResult.fetch ↔
      matchingTimes envTs5.names = [] ∨
        maxCacheTime envTs5.names < envTs5.now - 3600 * ((3 : Nat) : Int)) ∧
    (fromCacheOrWeb envTs5 3 ≠ FCWResult.fetch →
      ∃ name, name ∈ envTs5.names ∧
        cacheNameTimestamp name = some (maxCacheTime envTs5.names) ∧
        fromCacheOrWeb envTs5 3 = loadBranch envTs5 name (maxCacheTime envTs5.names))) :=
  ⟨by decide, fromCacheOrWeb_amended envTs5 3 (by decide)⟩

/-- The cache file name "SteamAppList@0.txt": it matches the pattern with
embedded timestamp 0. -/
def zeroCacheName : List Nat := cacheNamePrefix ++ [48] ++ txtSuffix

/-- A directory with only the timestamp-0 file, clock at 0. -/
def envTs0 : CacheEnv :=
  { now := 0, names := [zeroCacheName], load := fun _ => TerseOut.emptyErr }

/-- C4, counterexample to the unamended claim: "SteamAppList@0.txt" matches
the cache-name pattern and its embedded timestamp 0 is at least the cutoff
0 - 3600, yet `FromCacheOrWeb` fetches instead of loading it: the scan's
strict `timeFromName > latestTime` test against the initial `latestTime = 0`
never selects it. -/
theorem fromCacheOrWeb_zero_ts_counterexample :
    cacheNameTimestamp zeroCacheName = some 0 ∧
    envTs0.now - 3600 * ((1 : Nat) : Int) ≤ 0 ∧
    fromCacheOrWeb envTs0 1 = FCWResult.fetch := by decide

/-- C6 (amended): `FromCacheOrWeb` with maxAgeHours = 0 fetches whenever
every matching cache timestamp is strictly in the past (a file stamped at
or after `now` itself would still be loaded, since the cutoff is `now`). -/
theorem fromCacheOrWeb_maxAge0_amended (env : CacheEnv)
    (h : ∀ t ∈ matchingTimes env.names, t < env.now) :
    fromCacheOrWeb env 0 = FCWResult.fetch := by
  have hprops := selectNewest_props env.names
  cases hsel : selectNewest env.names with
  | mk o ℓ =>
    rw [hsel] at hprops
    cases o with
    | none => rw [fromCacheOrWeb_eq, hsel]
    | some name =>
      obtain ⟨hc1, hmem⟩ := hprops.2.2 name rfl
      have hℓmem : ℓ ∈ matchingTimes env.names := by
        unfold matchingTimes
        exact List.mem_filterMap.mpr ⟨name, hmem, hc1⟩
      have hlt : ℓ < env.now := h ℓ hℓmem
      rw [fromCacheOrWeb_eq, hsel]
      show (if ℓ < env.now - 3600 * ((0 : Nat) : Int) then FCWResult.fetch
        else loadBranch env name ℓ) = FCWResult.fetch
      rw [if_pos (by push_cast; omega)]

/-- Witness for the amended maxAgeHours = 0 theorem at `envTs5`. -/
theorem fromCacheOrWeb_maxAge0_amended_witness :
    (∀ t ∈ matchingTimes envTs5.names, t < envTs5.now) ∧
    fromCacheOrWeb envTs5 0 = FCWResult.fetch :=
  ⟨by decide, fromCacheOrWeb_maxAge0_amended envTs5 (by decide)⟩

/-- A cache file name with timestamp 200. -/
def cacheName200 : List Nat := cacheNamePrefix ++ [50, 48, 48] ++ txtSuffix

/-- A directory whose one cache file is stamped 200 while the clock reads
100, and whose contents are the terse encoding of an empty snapshot as of
200 (so the reader and the AsOf cross-check both succeed). -/
def envClockBehind : CacheEnv :=
  { now := 100, names := [cacheName200],
    load := fun _ => fromTerseBytes (WriteTerse (consistentAppList [] [] [] 200)) 0 }

/-- C6, counterexample to the unamended claim: with maxAgeHours = 0 the
cutoff is `now` itself, so a cache file stamped later than the clock (here
200 > 100, e.g. after a clock step backwards) is loaded and returned
rather than refetched. -/
theorem fromCacheOrWeb_maxAge0_counterexample :
    ∃ al, fromCacheOrWeb envClockBehind 0 = FCWResult.ok al := ⟨_, rfl⟩

/-- C7: once `FromCacheOrWeb` has selected a fresh-enough newest cache file
and loading it succeeded, it returns the cache-integrity CacheError exactly
when the loaded AsOf differs from the file name's timestamp, and the loaded
AppList exactly when they agree. -/
theorem fromCacheOrWeb_integrity (env : CacheEnv) (mah : Nat) (name : List Nat)
    (t : Int) (al : AppList)
    (hsel : selectNewest env.names = (some name, t))
    (hfresh : ¬ t < env.now - 3600 * (mah : Int))
    (hload : env.load name = TerseOut.ok al) :
    (al.AsOf ≠ t → fromCacheOrWeb env mah = FCWResult.integrityErr) ∧
    (al.AsOf = t → fromCacheOrWeb env mah = FCWResult.ok al) := by
  have hred : fromCacheOrWeb env mah = loadBranch env name t := by
    rw [fromCacheOrWeb_eq, hsel]
    show (if t < env.now - 3600 * (mah : Int) then FCWResult.fetch
      else loadBranch env name t) = loadBranch env name t
    rw [if_neg hfresh]
  have hlb : loadBranch env name t =
      if al.AsOf ≠ t then FCWResult.integrityErr else FCWResult.ok al := by
    unfold loadBranch
    rw [hload]
  constructor
  · intro hne
    rw [hred, hlb, if_pos hne]
  · intro heq
    rw [hred, hlb, if_neg (fun hne => hne heq)]

/-- The loaded snapshot the C7 witness uses: empty, as of 200. -/
def alAsOf200 : AppList := { emptyAppList with AsOf := 200 }

/-- A directory whose one cache file is stamped 200 and loads to
`alAsOf200`, with the clock at 100. -/
def envIntegrity : CacheEnv :=
  { now := 100, names := [cacheName200], load := fun _ => TerseOut.ok alAsOf200 }

/-- Witness for the integrity cross-check theorem at `envIntegrity` with
maxAgeHours 1. -/
theorem fromCacheOrWeb_integrity_witness :
    selectNewest envIntegrity.names = (some cacheName200, 200) ∧
    ¬ (200 : Int) < envIntegrity.now - 3600 * ((1 : Nat) : Int) ∧
    envIntegrity.load cacheName200 = TerseOut.ok alAsOf200 ∧
    ((alAsOf200.AsOf ≠ 200 → fromCacheOrWeb envIntegrity 1 = FCWResult.integrityErr) ∧
     (alAsOf200.AsOf = 200 → fromCacheOrWeb envIntegrity 1 = FCWResult.ok alAsOf200)) :=
  ⟨by decide, by decide, rfl,
    fromCacheOrWeb_integrity envIntegrity 1 cacheName200 200 alAsOf200
      (by decide) (by decide) rfl⟩

/- ================= The JSON reader (`FromJSON`, part_003) ================= -/

/-- The literal bytes of `formatStart` up to its `%d` verb:
`{"applist":{"apps":[{"appid":`. -/
def litStart : List Nat :=
  [123, 34, 97, 112, 112, 108, 105, 115, 116, 34, 58, 123, 34, 97, 112, 112,
   115, 34, 58, 91, 123, 34, 97, 112, 112, 105, 100, 34, 58]

/-- The literal bytes of `formatLater` up to its `%d` verb: `,{"appid":`. -/
def litLater : List Nat := [44, 123, 34, 97, 112, 112, 105, 100, 34, 58]

/-- The literal bytes between the `%d` and `%q` verbs: `,"name":`. -/
def litName : List Nat := [44, 34, 110, 97, 109, 101, 34, 58]

/-- The outcome of one `fmt.Fscanf` call with either entry format: the two
scanned operands and the unconsumed remainder, or a failure carrying `n`
(how many operands had been converted) and whether the scan stopped because
the data ran out rather than a byte mismatching.  Verb space-skipping is
not modelled: the scanned JSON stream carries no whitespace. -/
inductive ScanRes where
  | ok (number : Int) (name : List Nat) (rest : List Nat)
  | fail (n : Nat) (needMore : Bool)
deriving DecidableEq, Repr

/-- Scanning the shared tail of both formats after their leading literal:
`%d`, the `,"name":` literal, `%q`, and the closing `}` literal. -/
def scanTail (r1 : List Nat) : ScanRes :=
  match takeDigits r1 with
  | ([], r2) => ScanRes.fail 0 r2.isEmpty
  | (ds, r2) =>
    if 9223372036854775807 < digitsValN ds then ScanRes.fail 0 false
    else
      match matchLit litName r2 with
      | (none, ranOut) => ScanRes.fail 1 ranOut
      | (some r3, _) =>
        match scanQString r3 with
        | none => ScanRes.fail 1 r3.isEmpty
        | some (nm, r4) =>
          match r4 with
          | [] => ScanRes.fail 2 true
          | 125 :: r5 => ScanRes.ok ((digitsValN ds : Int)) nm r5
          | _ :: _ => ScanRes.fail 2 false

/-- One `fmt.Fscanf(bufReader, format, &number, &name)` with `format` the
given leading literal followed by the shared tail. -/
def scanEntry (lit : List Nat) (data : List Nat) : ScanRes :=
  match matchLit lit data with
  | (none, ranOut) => ScanRes.fail 0 ranOut
  | (some r1, _) => scanTail r1

/-- An input stream for `FromJSON`: its bytes, and whether the underlying
reader fails with an I/O error once those bytes are exhausted (false models
a clean end of stream). -/
structure JSONStream where
  data : List Nat
  ioErr : Bool

/-- The four ways `FromJSON` can come out: an AppList, the JSONParseError,
the ReadError, or an index-out-of-range panic escaping the call. -/
inductive JSONOut where
  | ok (al : AppList)
  | parseErr
  | readErr
  | panicOOB
deriving DecidableEq, Repr

/-- `fixCP1252` (part_003 lines 90-113), one byte at a time: each 0xC2 and
its following byte become "™" for 0x99, "’" for 0x92, and stay put
otherwise; a 0xC2 as the very last byte makes the source index `s[posC2+1]`
out of range, modelled as none. -/
def fixCP1252 : List Nat → Option (List Nat)
  | [] => some []
  | x :: xs =>
    if x = 194 then
      match xs with
      | [] => none
      | c :: rest =>
        match fixCP1252 rest with
        | none => none
        | some f =>
          if c = 153 then some ([226, 132, 162] ++ f)
          else if c = 146 then some ([226, 128, 153] ++ f)
          else some (194 :: c :: f)
    else
      match fixCP1252 xs with
      | none => none
      | some f => some (x :: f)

/-- The per-entry fixups of `FromJSON`'s loop (part_003 lines 63-74): strip
a trailing tab — indexing `name[len(name)-1]`, out of range when the name
is empty — then run `fixCP1252` when a 0xC2 byte occurs. -/
def jsonFixups (name : List Nat) : Option (List Nat) :=
  match name with
  | [] => none
  | _ =>
    if name.getD (name.length - 1) 0 = 9 then fixCP1252 (name.take (name.length - 1))
    else fixCP1252 name

/-- `FromJSON`'s entry loop: peek for the closing `]}}` (exactly three bytes
left), otherwise scan one `formatLater` entry, apply the fixups, insert,
and continue.  On a scan failure the source tests `n < 2` first
(JSONParseError) and otherwise `err != nil` (ReadError); a `ScanRes.fail`
always has a non-nil error behind it, so `n ≥ 2` failures map to ReadError.
The fuel argument only bounds the recursion: each iteration consumes the
non-empty `,{"appid":` literal, so fuel = data length is never the reason
the loop stops. -/
def jsonLoop : Nat → List Nat → AppList → JSONOut
  | fuel, data, al =>
    if data = [93, 125, 125] then JSONOut.ok (finishAppList al)
    else
      match fuel with
      | 0 => JSONOut.parseErr
      | fuel' + 1 =>
        match scanEntry litLater data with
        | ScanRes.fail n _ =>
          if n < 2 then JSONOut.parseErr else JSONOut.readErr
        | ScanRes.ok number nm rest =>
          match jsonFixups nm with
          | none => JSONOut.panicOOB
          | some nm2 => jsonLoop fuel' rest (maybeInsert number nm2 al)

/-- `FromJSON` (part_003 lines 18-79): scan the first entry with
`formatStart` — note the first entry skips the fixups — then run the loop.
`now` stands for the `time.Now()` the source stores in AsOf. -/
def fromJSON (s : JSONStream) (now : Int) : JSONOut :=
  match scanEntry litStart s.data with
  | ScanRes.fail n _ =>
    if n < 2 then JSONOut.parseErr else JSONOut.readErr
  | ScanRes.ok number nm rest =>
    jsonLoop rest.length rest (maybeInsert number nm { emptyAppList with AsOf := now })

/-- A stream that ends right where the first `%d` should begin, whose
reader then fails with an I/O error. -/
def truncatedStream : JSONStream := { data := litStart, ioErr := true }

/-- C8: a stream whose reader fails with an I/O error mid-stream (here
right at the first `%d`) is classified as a JSONParseError, not the
ReadError the claim requires: the scan converted n = 0 operands before the
reader failed (`needMore = true`), and the source's `n < 2` test runs
before its `err != nil` test, so the I/O error never reaches the read-failure
branch. -/
theorem fromJSON_misclassifies_io_error :
    scanEntry litStart truncatedStream.data = ScanRes.fail 0 true ∧
    truncatedStream.ioErr = true ∧
    fromJSON truncatedStream 0 = JSONOut.parseErr := ⟨rfl, rfl, rfl⟩

/-- The bytes of
`{"applist":{"apps":[{"appid":1,"name":"A"},{"appid":2,"name":""}]}}`:
well-formed JSON whose second entry has an empty name. -/
def emptyNameJSON : List Nat :=
  [123, 34, 97, 112, 112, 108, 105, 115, 116, 34, 58, 123, 34, 97, 112, 112,
   115, 34, 58, 91, 123, 34, 97, 112, 112, 105, 100, 34, 58, 49, 44, 34, 110,
   97, 109, 101, 34, 58, 34, 65, 34, 125, 44, 123, 34, 97, 112, 112, 105, 100,
   34, 58, 50, 44, 34, 110, 97, 109, 101, 34, 58, 34, 34, 125, 93, 125, 125]

/-- C10: on well-formed JSON whose second entry has the empty name,
`FromJSON` panics (index out of range) instead of returning an AppList or
an error: the trailing-tab strip indexes `name[len(name)-1]` with
`len(name) = 0`. -/
theorem fromJSON_empty_name_panics :
    fromJSON { data := emptyNameJSON, ioErr := false } 0 = JSONOut.panicOOB := rfl

/- ============== The simple-format reader (`FromSimpleFormat`) ============== -/

/-- The per-line digit loop of `FromSimpleFormat` (part_002 lines 169-172),
faithfully including that its body never increments `i`; `fuel` counts
iterations, and none stands for "still looping after `fuel` iterations". -/
def simpleDigitLoop (line : List Nat) : Nat → Nat → Int → Option (Nat × Int)
  | 0, _, _ => none
  | fuel + 1, i, number =>
    if i < line.length ∧ 48 ≤ line.getD i 0 ∧ line.getD i 0 ≤ 57 then
      simpleDigitLoop line fuel i (wrap64 (number * 10 + ((line.getD i 0 : Int) - 48)))
    else some (i, number)

/-- C9: on any line whose first byte is a digit (48 + b % 10 ranges over
exactly the ASCII digits), the digit loop of `FromSimpleFormat` never
terminates: however many iterations it is allowed, it is still looping,
because `i` stays 0 and `line[0]` stays a digit. -/
theorem simpleDigitLoop_diverges (b : Nat) (rest : List Nat) :
    ∀ (fuel : Nat) (number : Int),
      simpleDigitLoop ((48 + b % 10) :: rest) fuel 0 number = none := by
  intro fuel
  induction fuel with
  | zero => intro number; rfl
  | succ n ih =>
    intro number
    show (if 0 < ((48 + b % 10) :: rest).length ∧
          48 ≤ ((48 + b % 10) :: rest).getD 0 0 ∧ ((48 + b % 10) :: rest).getD 0 0 ≤ 57 then
        simpleDigitLoop ((48 + b % 10) :: rest) n 0
          (wrap64 (number * 10 + ((((48 + b % 10) :: rest).getD 0 0 : Int) - 48)))
      else some (0, number)) = none
    have hmod : b % 10 < 10 := Nat.mod_lt b (by norm_num)
    rw [if_pos ⟨by simp, by simp, by simp; omega⟩]
    exact ih _
